import Mathlib

/-!
Verification of the RootCauseAnalysisSystem repository: a shallow embedding of
the Brain orchestration engine (`src/rca/brain/engine.py`, `src/rca/brain/nodes.py`)
and the Differential Indexer (`src/rca/indexing/differential_indexer.py`),
with theorems settling the specification claims.

Modelling conventions:
* Python `float` scores are modelled as `ℚ` (all score arithmetic in the code is
  exact at the values exercised here; no float edge cases are relied upon).
* Python `str` is Lean `String`; Python lists are Lean `List`s.
* Python `dict` iteration order (insertion order) is modelled by ordered lists.
* `datetime` timestamps are modelled as rational time coordinates.
-/

namespace RCA

/-- Embedding of `_dedupe` (`src/rca/brain/nodes.py` lines 23-24):
`list(dict.fromkeys(items))` keeps the first occurrence of each element,
in order. -/
def pyDedupe (l : List String) : List String :=
  l.foldl (fun acc x => if x ∈ acc then acc else acc ++ [x]) []

/-- Reference recursion for `pyDedupe`: emit each element whose value has not
been seen yet, threading the set of seen values. -/
def dedupeGo (seen : List String) : List String → List String
  | [] => []
  | x :: xs => if x ∈ seen then dedupeGo seen xs else x :: dedupeGo (x :: seen) xs

theorem dedupeGo_congr {s t : List String} (h : ∀ b, b ∈ s ↔ b ∈ t) :
    ∀ l, dedupeGo s l = dedupeGo t l := by
  intro l
  induction l generalizing s t with
  | nil => rfl
  | cons x xs ih =>
    simp only [dedupeGo]
    by_cases hx : x ∈ s
    · rw [if_pos hx, if_pos ((h x).1 hx), ih h]
    · rw [if_neg hx, if_neg (fun hc => hx ((h x).2 hc))]
      congr 1
      apply ih
      intro b
      simp only [List.mem_cons]
      exact or_congr Iff.rfl (h b)

theorem pyDedupe_eq_go (l : List String) : pyDedupe l = dedupeGo [] l := by
  suffices h : ∀ (l acc : List String),
      l.foldl (fun acc x => if x ∈ acc then acc else acc ++ [x]) acc =
        acc ++ dedupeGo acc l by
    simpa using h l []
  intro l
  induction l with
  | nil => simp [dedupeGo]
  | cons x xs ih =>
    intro acc
    simp only [List.foldl_cons, dedupeGo]
    by_cases hx : x ∈ acc
    · rw [if_pos hx, if_pos hx, ih]
    · rw [if_neg hx, if_neg hx, ih]
      have : dedupeGo (acc ++ [x]) xs = dedupeGo (x :: acc) xs := by
        apply dedupeGo_congr
        intro b; simp [or_comm]
      rw [this]
      simp

theorem mem_dedupeGo (seen l : List String) (a : String) :
    a ∈ dedupeGo seen l ↔ a ∈ l ∧ a ∉ seen := by
  induction l generalizing seen with
  | nil => simp [dedupeGo]
  | cons x xs ih =>
    simp only [dedupeGo]
    by_cases hx : x ∈ seen
    · rw [if_pos hx, ih]
      constructor
      · rintro ⟨h1, h2⟩
        exact ⟨List.mem_cons_of_mem x h1, h2⟩
      · rintro ⟨h1, h2⟩
        rcases List.mem_cons.1 h1 with rfl | h1
        · exact absurd hx h2
        · exact ⟨h1, h2⟩
    · rw [if_neg hx]
      constructor
      · intro h
        rcases List.mem_cons.1 h with rfl | h
        · exact ⟨List.mem_cons_self a xs, hx⟩
        · rw [ih] at h
          obtain ⟨h1, h2⟩ := h
          exact ⟨List.mem_cons_of_mem x h1, fun hc => h2 (List.mem_cons_of_mem x hc)⟩
      · rintro ⟨h1, h2⟩
        rcases List.mem_cons.1 h1 with rfl | h1
        · exact List.mem_cons_self a _
        · by_cases hax : a = x
          · subst hax; exact List.mem_cons_self a _
          · refine List.mem_cons_of_mem x ?_
            rw [ih]
            refine ⟨h1, fun hc => ?_⟩
            rcases List.mem_cons.1 hc with h | h
            · exact hax h
            · exact h2 h

theorem nodup_dedupeGo (seen l : List String) : (dedupeGo seen l).Nodup := by
  induction l generalizing seen with
  | nil => simp [dedupeGo]
  | cons x xs ih =>
    simp only [dedupeGo]
    by_cases hx : x ∈ seen
    · rw [if_pos hx]; exact ih seen
    · rw [if_neg hx]
      refine List.nodup_cons.2 ⟨?_, ih (x :: seen)⟩
      rw [mem_dedupeGo]
      rintro ⟨-, h2⟩
      exact h2 (List.mem_cons_self x seen)

theorem sublist_dedupeGo (seen l : List String) : (dedupeGo seen l).Sublist l := by
  induction l generalizing seen with
  | nil => simp [dedupeGo]
  | cons x xs ih =>
    simp only [dedupeGo]
    by_cases hx : x ∈ seen
    · rw [if_pos hx]; exact (ih seen).cons x
    · rw [if_neg hx]; exact (ih (x :: seen)).cons₂ x

/-- `pyDedupe` output has no duplicates. -/
theorem pyDedupe_nodup (l : List String) : (pyDedupe l).Nodup := by
  rw [pyDedupe_eq_go]; exact nodup_dedupeGo [] l

/-- `pyDedupe` keeps exactly the members of its input. -/
theorem mem_pyDedupe (l : List String) (a : String) : a ∈ pyDedupe l ↔ a ∈ l := by
  rw [pyDedupe_eq_go, mem_dedupeGo]; simp

/-- `pyDedupe` output is a subsequence of the input: relative order of the kept
occurrences is the input's order. -/
theorem pyDedupe_sublist (l : List String) : (pyDedupe l).Sublist l := by
  rw [pyDedupe_eq_go]; exact sublist_dedupeGo [] l

theorem dedupeGo_cons_seen (x : String) (seen l : List String) :
    dedupeGo (x :: seen) l = dedupeGo seen (l.filter (fun b => b ≠ x)) := by
  induction l generalizing seen with
  | nil => rfl
  | cons y ys ih =>
    rw [List.filter_cons]
    by_cases hy : y = x
    · subst hy
      rw [if_neg (by simp)]
      simp only [dedupeGo]
      rw [if_pos (List.mem_cons_self y seen)]
      exact ih seen
    · rw [if_pos (by simp [hy])]
      by_cases hys : y ∈ seen
      · simp only [dedupeGo]
        rw [if_pos (List.mem_cons.2 (Or.inr hys)), if_pos hys]
        exact ih seen
      · simp only [dedupeGo]
        rw [if_neg (by simp [hy, hys]), if_neg hys]
        congr 1
        rw [← ih (y :: seen)]
        apply dedupeGo_congr
        intro b
        simp only [List.mem_cons]
        tauto

/-- `pyDedupe` keeps the *first* occurrence of each element: on a cons cell the
head is emitted and every later copy of it is discarded. -/
theorem pyDedupe_cons (x : String) (l : List String) :
    pyDedupe (x :: l) = x :: pyDedupe (l.filter (fun b => b ≠ x)) := by
  rw [pyDedupe_eq_go, pyDedupe_eq_go]
  simp only [dedupeGo]
  rw [if_neg (List.not_mem_nil x)]
  congr 1
  exact dedupeGo_cons_seen x [] l

/-! ## Brain data model (`src/rca/brain/models.py`) -/

/-- One parsed mesh event, as produced by `_extract_mesh_events`
(`src/rca/brain/nodes.py` lines 27-49).  The `ts` field is the parsed
timestamp: `none` models a missing/non-string/unparseable `ts` value (the
code `continue`s over those); numeric fields are the already-coerced floats. -/
structure MeshEvent where
  service : String
  ts : Option ℚ
  latency_ms : ℚ
  retry_count : ℚ
  response_code : ℤ
  upstream : String
deriving Repr, DecidableEq

/-- `ApprovedIncident` (`src/rca/brain/models.py` lines 11-17).  `started_at`
is a rational time coordinate; `mesh_events` models the mesh-event list
recoverable from `extra_context` via `_extract_mesh_events`. -/
structure ApprovedIncident where
  incident_id : String
  service : String
  started_at : ℚ
  deployment_id : Option String := none
  mesh_events : List MeshEvent := []
deriving Repr, DecidableEq

/-- `Hypothesis` (`src/rca/brain/models.py` lines 20-24). -/
structure Hypothesis where
  title : String
  summary : String
  confidence : ℚ
  evidence_refs : List String := []
deriving Repr, DecidableEq

/-- `BrainState` (`src/rca/brain/models.py` lines 37-60), with the defaults of
the Pydantic model. -/
structure BrainState where
  incident : ApprovedIncident
  iteration : ℕ := 0
  max_iterations : ℕ := 3
  critic_threshold : ℚ := 80/100
  evidence_refs : List String := []
  hypotheses : List Hypothesis := []
  critic_score : ℚ := 0
  status : String := "running"
  errors : List String := []
  task_plan : String := ""
  git_summary : String := ""
  metrics_summary : String := ""
  critic_reasoning : String := ""
  suspect_services : List String := []
  suspect_edges : List String := []
  mesh_summary : String := ""
  fix_summary : String := ""
  fix_confidence : ℚ := 0
  fix_reasoning : String := ""
deriving Repr, DecidableEq

/-- Python truthiness of an `Optional[str]` (`if state.incident.deployment_id:`):
`None` and the empty string are falsy. -/
def optStrTruthy : Option String → Bool
  | none => false
  | some s => s ≠ ""

/-! ## Mesh-event suspect detection (`src/rca/brain/nodes.py` lines 52-130) -/

/-- The per-upstream accumulator dict of `_find_suspects_from_mesh`
(`current.setdefault(upstream, {"count": .., "err": .., "lat_sum": .., "retry_sum": ..})`). -/
structure MeshStats where
  count : ℚ
  err : ℚ
  lat_sum : ℚ
  retry_sum : ℚ
deriving Repr, DecidableEq

/-- `current.setdefault(k, zeros)` followed by an in-place update: Python dicts
keep insertion order, modelled as an ordered association list. -/
def updAssoc (m : List (String × MeshStats)) (k : String) (f : MeshStats → MeshStats) :
    List (String × MeshStats) :=
  if m.any (fun p => p.1 = k) then
    m.map (fun p => if p.1 = k then (p.1, f p.2) else p)
  else
    m ++ [(k, f ⟨0, 0, 0, 0⟩)]

/-- `statistics.median`: middle element of the sorted list, or the mean of the
two middle elements for even length. -/
def pyMedian (l : List ℚ) : ℚ :=
  let s := l.insertionSort (· ≤ ·)
  let n := l.length
  if n % 2 = 1 then s.getD (n / 2) 0
  else (s.getD (n / 2 - 1) 0 + s.getD (n / 2) 0) / 2

/-- Embedding of `_find_suspects_from_mesh` (`src/rca/brain/nodes.py` lines
52-130): returns `(suspect_services, suspect_edges)` derived from the
incident's mesh events.  `pre_start = start - 30 minutes` is `start - 1800`
in second units (the unit is irrelevant to the claims). -/
def findSuspectsFromMesh (inc : ApprovedIncident) : List String × List String :=
  if inc.mesh_events = [] then ([], [])
  else
    let start := inc.started_at
    let preStart := start - 1800
    let acc := inc.mesh_events.foldl
      (fun (acc : List ℚ × List (String × MeshStats)) e =>
        if e.service ≠ inc.service then acc
        else
          match e.ts with
          | none => acc
          | some ts =>
            let upstream := e.upstream.trim
            if upstream = "" then acc
            else
              let baseline := if preStart ≤ ts ∧ ts < start then acc.1 ++ [e.latency_ms] else acc.1
              if ts < start then (baseline, acc.2)
              else
                (baseline,
                 updAssoc acc.2 upstream (fun st =>
                   { count := st.count + 1,
                     err := if 500 ≤ e.response_code then st.err + 1 else st.err,
                     lat_sum := st.lat_sum + e.latency_ms,
                     retry_sum := st.retry_sum + e.retry_count })))
      ([], [])
    if acc.2 = [] then ([], [])
    else
      let baseline := if acc.1 ≠ [] then pyMedian acc.1 else 0
      let res := acc.2.foldl
        (fun (r : List String × List String) p =>
          let count := max p.2.count 1
          let errRate := p.2.err / count
          let avgLatency := p.2.lat_sum / count
          let avgRetry := p.2.retry_sum / count
          let degraded :=
            (1/10 : ℚ) ≤ errRate ∨ (3 : ℚ) ≤ avgRetry ∨
              (0 < baseline ∧ baseline * 2 ≤ avgLatency) ∨ (500 : ℚ) ≤ avgLatency
          if degraded then (r.1 ++ [p.1], r.2 ++ [inc.service ++ "->" ++ p.1]) else r)
        ([], [])
      (pyDedupe res.1, pyDedupe res.2)

/-! ## Stub investigator stages (`src/rca/brain/nodes.py`, `llm=None`,
`mesh_driver=None`, `graph_index=None` paths) -/

/-- `supervisor` (`src/rca/brain/nodes.py` lines 242-286), stub branch, with
the `iteration` increment applied by `_supervisor_node`
(`src/rca/brain/engine.py` lines 89-92) factored out into `stubCycle`. -/
def supervisorStub (s : BrainState) : BrainState :=
  let sus :=
    if s.suspect_services = [] then [s.incident.service]
    else if s.incident.service ∉ s.suspect_services then
      s.incident.service :: s.suspect_services
    else s.suspect_services
  { s with
    suspect_services := pyDedupe sus,
    evidence_refs := pyDedupe (s.evidence_refs ++ ["incident:" ++ s.incident.incident_id]),
    task_plan :=
      "Investigate " ++ s.incident.service ++ " incident starting at " ++
        toString s.incident.started_at ++ ". " ++
        (if optStrTruthy s.incident.deployment_id then
          "Linked deployment " ++ s.incident.deployment_id.getD "" ++ " is a prime suspect."
        else "No linked deployment — check infra and dependency signals.") }

/-- `mesh_scout` (`src/rca/brain/nodes.py` lines 223-235), the raw-event
fallback branch taken when no mesh driver is configured. -/
def meshScoutStub (s : BrainState) : BrainState :=
  let p := findSuspectsFromMesh s.incident
  if p.1 ≠ [] then
    { s with
      suspect_services := pyDedupe (s.incident.service :: p.1),
      suspect_edges := p.2,
      mesh_summary := "Suspect services from raw mesh events (no graph driver): " ++
        String.intercalate ", " p.1,
      evidence_refs := pyDedupe s.evidence_refs }
  else
    { s with
      suspect_services := pyDedupe [s.incident.service],
      mesh_summary := "No mesh suspects found (no graph driver, no qualifying events).",
      evidence_refs := pyDedupe s.evidence_refs }

/-- `git_scout` (`src/rca/brain/nodes.py` lines 318-409) with no graph index
and no LLM: the deployment evidence ref is appended (line 334) and the Path-4
stub summary is produced (lines 395-405).  Note: this path never deduplicates
`evidence_refs`. -/
def gitScoutStub (s : BrainState) : BrainState :=
  if optStrTruthy s.incident.deployment_id then
    { s with
      evidence_refs := s.evidence_refs ++ ["deploy:" ++ s.incident.deployment_id.getD ""],
      git_summary := "Deployment " ++ s.incident.deployment_id.getD "" ++
        " found near the incident window. Review DB migrations, timeout settings, and dependency bumps across suspect services." }
  else
    { s with
      git_summary := "No deployment linked to this incident. Focus on infrastructure, traffic, and dependency signals across suspect services." }

/-- The stub `metrics_summary` text (`src/rca/brain/nodes.py` lines 459-470),
built from the (already merged) suspect services. -/
def mkMetricsSummary (service : String) (sus : List String) : String :=
  "Anomaly detected on " ++ service ++
    ". Expect elevated p99 latency and error rate in the incident window. Check CPU and connection pool saturation." ++
    (if sus ≠ [] then " Suspect dependencies: " ++ String.intercalate ", " sus ++ "." else "")

/-- `metric_analyst` (`src/rca/brain/nodes.py` lines 416-474), stub branch. -/
def metricAnalystStub (s : BrainState) : BrainState :=
  let refs0 := s.evidence_refs ++ ["metric:" ++ s.incident.service ++ ":p99"]
  if s.suspect_services.length ≤ 1 then
    let p := findSuspectsFromMesh s.incident
    if p.1 ≠ [] then
      let sus := pyDedupe (s.incident.service :: (s.suspect_services ++ p.1))
      { s with
        evidence_refs := pyDedupe (refs0 ++
          p.1.flatMap (fun svc => ["mesh-suspect:" ++ svc, "logs:" ++ svc])),
        suspect_services := sus,
        suspect_edges := pyDedupe (s.suspect_edges ++ p.2),
        metrics_summary := mkMetricsSummary s.incident.service sus }
    else
      { s with
        evidence_refs := pyDedupe refs0,
        metrics_summary := mkMetricsSummary s.incident.service s.suspect_services }
  else
    { s with
      evidence_refs := pyDedupe (refs0 ++ s.suspect_services.tail.map (fun svc => "logs:" ++ svc)),
      metrics_summary := mkMetricsSummary s.incident.service s.suspect_services }

/-- `rca_synthesizer` (`src/rca/brain/nodes.py` lines 481-560), deterministic
stub branch (lines 538-556). -/
def rcaSynthesizerStub (s : BrainState) : BrainState :=
  let h :=
    if optStrTruthy s.incident.deployment_id then
      Hypothesis.mk "Recent rollout regression" "Error spike aligns with deployment window."
        (86/100) (pyDedupe s.evidence_refs)
    else
      Hypothesis.mk "Traffic or dependency instability" "Signal exists but no deployment linkage found."
        (62/100) (pyDedupe s.evidence_refs)
  { s with hypotheses := [h] }

/-- Python `max(hypotheses, key=lambda h: h.confidence)`: first hypothesis of
maximal confidence (later elements replace the best only on a strict
increase). -/
def pyMaxByConfidence : List Hypothesis → Hypothesis
  | [] => ⟨"", "", 0, []⟩
  | h :: t => t.foldl (fun best x => if best.confidence < x.confidence then x else best) h

/-- `critic` (`src/rca/brain/nodes.py` lines 567-613), stub branch.  On an
empty hypothesis list the function returns early with score 0 and no
reasoning. -/
def criticStub (s : BrainState) : BrainState :=
  if s.hypotheses = [] then { s with critic_score := 0 }
  else
    let top := pyMaxByConfidence s.hypotheses
    let decay : ℚ := max 0 ((2/100) * ((s.iteration : ℚ) - 1))
    { s with
      critic_score := max 0 (min 1 (top.confidence - decay)),
      critic_reasoning := "Stub evaluation: top hypothesis confidence " ++
        toString top.confidence ++ " with decay " ++ toString decay ++ "." }

/-- `round(x, 2)` on Python floats is round-half-to-even on the exact value;
at non-tie points (all values arising in the claims) it agrees with exact
rational rounding. -/
def pyRoundHalfEven (q : ℚ) : ℤ :=
  let f := ⌊q⌋
  let r := q - f
  if r < 1/2 then f
  else if 1/2 < r then f + 1
  else if f % 2 = 0 then f else f + 1

def pyRound2 (q : ℚ) : ℚ := (pyRoundHalfEven (q * 100) : ℚ) / 100

/-- `fix_advisor` (`src/rca/brain/nodes.py` lines 620-688), stub branch. -/
def fixAdvisorStub (s : BrainState) : BrainState :=
  if s.hypotheses = [] then
    { s with
      fix_summary := "No hypotheses available — manual investigation required.",
      fix_confidence := 0,
      fix_reasoning := "No hypotheses to base a fix on." }
  else
    let top := pyMaxByConfidence s.hypotheses
    let avg := (s.hypotheses.map (fun h => h.confidence)).sum / (s.hypotheses.length : ℚ)
    { s with
      fix_confidence := pyRound2 (min 1 (avg * (9/10))),
      fix_summary := "Investigate and remediate: " ++ top.title.toLower ++ " on " ++
        s.incident.service ++ ".",
      fix_reasoning := "Stub fix advisor: derived from top hypothesis " ++ top.title ++
        " averaged across " ++ toString s.hypotheses.length ++ " hypothesis/es." }

/-! ## Orchestration engine (`src/rca/brain/engine.py`) -/

/-- `BrainEngineConfig` (`src/rca/brain/engine.py` lines 37-45). -/
structure BrainEngineConfig where
  critic_threshold : ℚ := 80/100
  fix_confidence_threshold : ℚ := 75/100
  max_iterations : ℕ := 3
deriving Repr, DecidableEq

/-- `_route_after_critic` (`src/rca/brain/engine.py` lines 112-118). -/
def routeAfterCritic (cfg : BrainEngineConfig) (s : BrainState) : String :=
  if cfg.critic_threshold ≤ s.critic_score then "done"
  else if cfg.max_iterations ≤ s.iteration then "done"
  else "refine"

/-- The conditional-edge mapping `{"done": "fix_advisor", "refine": "supervisor"}`
(`src/rca/brain/engine.py` lines 136-140). -/
def routeTarget (cfg : BrainEngineConfig) (s : BrainState) : String :=
  if routeAfterCritic cfg s = "done" then "fix_advisor" else "supervisor"

/-- One pass through the cyclic part of the graph:
`supervisor → mesh_scout → git_scout → metric_analyst → rca_synthesizer → critic`,
with the iteration increment of `_supervisor_node`
(`src/rca/brain/engine.py` lines 89-92, 130-135). -/
def stubCycle (s : BrainState) : BrainState :=
  criticStub (rcaSynthesizerStub (metricAnalystStub (gitScoutStub (meshScoutStub
    (supervisorStub { s with iteration := s.iteration + 1 })))))

theorem supervisorStub_iteration (s : BrainState) :
    (supervisorStub s).iteration = s.iteration := rfl

theorem meshScoutStub_iteration (s : BrainState) :
    (meshScoutStub s).iteration = s.iteration := by
  simp only [meshScoutStub]; split <;> rfl

theorem gitScoutStub_iteration (s : BrainState) :
    (gitScoutStub s).iteration = s.iteration := by
  unfold gitScoutStub; split <;> rfl

theorem metricAnalystStub_iteration (s : BrainState) :
    (metricAnalystStub s).iteration = s.iteration := by
  simp only [metricAnalystStub]
  split
  · split <;> rfl
  · rfl

theorem rcaSynthesizerStub_iteration (s : BrainState) :
    (rcaSynthesizerStub s).iteration = s.iteration := rfl

theorem criticStub_iteration (s : BrainState) :
    (criticStub s).iteration = s.iteration := by
  unfold criticStub; split <;> rfl

theorem fixAdvisorStub_iteration (s : BrainState) :
    (fixAdvisorStub s).iteration = s.iteration := by
  unfold fixAdvisorStub; split <;> rfl

/-- `_supervisor_node` increments the iteration counter exactly once per
cycle; no other stage touches it. -/
theorem stubCycle_iteration (s : BrainState) :
    (stubCycle s).iteration = s.iteration + 1 := by
  unfold stubCycle
  rw [criticStub_iteration, rcaSynthesizerStub_iteration, metricAnalystStub_iteration,
    gitScoutStub_iteration, meshScoutStub_iteration, supervisorStub_iteration]

/-- The compiled graph's cyclic execution in stub mode: run the six-stage
cycle, then either finish through `fix_advisor` or loop back to the
supervisor, as decided by `_route_after_critic`.  The recursion is bounded by
an explicit fuel counter; `runStubFrom_fuel_stable` proves that the fuel is
semantically inert (the routing condition forces `"done"` before the fuel can
run out), so this is a faithful rendering of the unbounded graph loop. -/
def runStubFrom (cfg : BrainEngineConfig) : ℕ → BrainState → BrainState
  | 0, s => fixAdvisorStub (stubCycle s)
  | fuel + 1, s =>
    if routeAfterCritic cfg (stubCycle s) = "done" then fixAdvisorStub (stubCycle s)
    else runStubFrom cfg fuel (stubCycle s)

/-- Once the fuel covers the remaining iteration budget, adding more fuel does
not change the run: the loop always exits via the `"done"` route first. -/
theorem runStubFrom_fuel_stable (cfg : BrainEngineConfig) :
    ∀ (fuel : ℕ) (s : BrainState), cfg.max_iterations ≤ s.iteration + fuel →
      runStubFrom cfg (fuel + 1) s = runStubFrom cfg fuel s := by
  intro fuel
  induction fuel with
  | zero =>
    intro s h
    have hroute : routeAfterCritic cfg (stubCycle s) = "done" := by
      unfold routeAfterCritic
      by_cases h1 : cfg.critic_threshold ≤ (stubCycle s).critic_score
      · rw [if_pos h1]
      · rw [if_neg h1, if_pos (by rw [stubCycle_iteration]; omega)]
    show (if routeAfterCritic cfg (stubCycle s) = "done" then _ else _) = _
    rw [if_pos hroute]
    rfl
  | succ fuel ih =>
    intro s h
    show (if routeAfterCritic cfg (stubCycle s) = "done" then _ else _) =
      (if routeAfterCritic cfg (stubCycle s) = "done" then _ else _)
    by_cases hr : routeAfterCritic cfg (stubCycle s) = "done"
    · rw [if_pos hr, if_pos hr]
    · rw [if_neg hr, if_neg hr]
      exact ih (stubCycle s) (by rw [stubCycle_iteration]; omega)

/-- Initial state construction in `BrainEngine.run`
(`src/rca/brain/engine.py` lines 150-154). -/
def brainInitialState (cfg : BrainEngineConfig) (inc : ApprovedIncident) : BrainState :=
  { incident := inc, max_iterations := cfg.max_iterations,
    critic_threshold := cfg.critic_threshold }

/-- The complete stub-mode graph invocation.  The initial iteration is 0, so
`max_iterations` fuel satisfies `runStubFrom_fuel_stable`'s bound. -/
def runStub (cfg : BrainEngineConfig) (inc : ApprovedIncident) : BrainState :=
  runStubFrom cfg cfg.max_iterations (brainInitialState cfg inc)

/-- `RcaReport` (`src/rca/brain/models.py` lines 27-34).  The `metadata` dict
is modelled by its claim-relevant entry: `meta_iteration` is
`metadata["iteration"]` on the success path and `none` for the empty metadata
of the failure path. -/
structure RcaReport where
  incident_id : String
  status : String
  critic_score : ℚ := 0
  fix_confidence : ℚ := 0
  hypotheses : List Hypothesis := []
  errors : List String := []
  meta_iteration : Option ℕ := none
deriving Repr, DecidableEq

/-- `BrainEngine.run` (`src/rca/brain/engine.py` lines 149-205).  The graph
invocation is abstracted as an `Except String BrainState`: `.error msg` models
an unhandled exception with message `msg` escaping any stage, `.ok final` a
normal completion with final state `final`. -/
def reportOf (cfg : BrainEngineConfig) (inc : ApprovedIncident)
    (outcome : Except String BrainState) : RcaReport :=
  match outcome with
  | .ok final =>
    { incident_id := final.incident.incident_id,
      status :=
        if cfg.critic_threshold ≤ final.critic_score ∨
            cfg.fix_confidence_threshold ≤ final.fix_confidence then "completed"
        else "escalated",
      critic_score := final.critic_score,
      fix_confidence := final.fix_confidence,
      hypotheses := final.hypotheses,
      errors := final.errors,
      meta_iteration := some final.iteration }
  | .error msg =>
    { incident_id := inc.incident_id, status := "failed", errors := [msg],
      meta_iteration := none }

/-- `BrainEngine.run` in stub mode on the success path. -/
def engineRunStub (cfg : BrainEngineConfig) (inc : ApprovedIncident) : RcaReport :=
  reportOf cfg inc (.ok (runStub cfg inc))

/-- Supervisor-entry count of a run of the cyclic graph, abstracted over the
critic score produced at each pass (`score n` is the critic score on the
pass whose supervisor entry set `iteration = n`).  The routing condition is
that of `_route_after_critic`; the `+1` per entry is the increment of
`_supervisor_node`. -/
def supervisorEntriesFrom (score : ℕ → ℚ) (thr : ℚ) (maxIter : ℕ) (it : ℕ) : ℕ :=
  if thr ≤ score (it + 1) ∨ maxIter ≤ it + 1 then 1
  else 1 + supervisorEntriesFrom score thr maxIter (it + 1)
termination_by maxIter - it
decreasing_by
  rename_i h
  rw [not_or] at h
  have h2 : ¬ maxIter ≤ it + 1 := h.2
  omega

/-- Supervisor entries of a whole run: `iteration` starts at 0. -/
def supervisorEntries (score : ℕ → ℚ) (thr : ℚ) (maxIter : ℕ) : ℕ :=
  supervisorEntriesFrom score thr maxIter 0

theorem supervisorEntriesFrom_le (score : ℕ → ℚ) (thr : ℚ) (maxIter : ℕ) :
    ∀ k it, maxIter - it ≤ k → it < maxIter →
      supervisorEntriesFrom score thr maxIter it ≤ maxIter - it := by
  intro k
  induction k with
  | zero => intro it hk hit; omega
  | succ k ih =>
    intro it hk hit
    rw [supervisorEntriesFrom]
    split
    · omega
    · rename_i h
      rw [not_or] at h
      have h2 : it + 1 < maxIter := by
        rcases Nat.lt_or_ge (it + 1) maxIter with h' | h'
        · exact h'
        · exact absurd h' h.2
      have := ih (it + 1) (by omega) h2
      omega

/-- C1.  `BrainEngine.run` statuses: an unhandled exception in the graph
yields a `failed` report carrying the exception message in `errors`;
otherwise the report is `completed` exactly when the final
`critic_score ≥ critic_threshold` or the final
`fix_confidence ≥ fix_confidence_threshold`, and `escalated` exactly
otherwise. -/
theorem run_report_status (cfg : BrainEngineConfig) (inc : ApprovedIncident)
    (outcome : Except String BrainState) :
    (∀ msg, outcome = .error msg →
      (reportOf cfg inc outcome).status = "failed" ∧
        msg ∈ (reportOf cfg inc outcome).errors) ∧
    (∀ final, outcome = .ok final →
      ((reportOf cfg inc outcome).status = "completed" ↔
        (cfg.critic_threshold ≤ final.critic_score ∨
          cfg.fix_confidence_threshold ≤ final.fix_confidence)) ∧
      ((reportOf cfg inc outcome).status = "escalated" ↔
        ¬(cfg.critic_threshold ≤ final.critic_score ∨
          cfg.fix_confidence_threshold ≤ final.fix_confidence))) := by
  constructor
  · rintro msg rfl
    exact ⟨rfl, List.mem_singleton_self msg⟩
  · rintro final rfl
    by_cases h : cfg.critic_threshold ≤ final.critic_score ∨
        cfg.fix_confidence_threshold ≤ final.fix_confidence
    · constructor
      · simp [reportOf, h]
      · simp [reportOf, h]
    · constructor
      · simp [reportOf, h]
      · simp [reportOf, h]

/-- A concrete incident used by witnesses. -/
def exIncident : ApprovedIncident :=
  { incident_id := "inc-1", service := "checkout-api", started_at := 0,
    deployment_id := some "deploy-1", mesh_events := [] }

/-- Witness for `run_report_status` at a concrete failed outcome and a
concrete successful outcome. -/
theorem run_report_status_witness :
    ((reportOf {} exIncident (.error "boom")).status = "failed" ∧
      "boom" ∈ (reportOf {} exIncident (.error "boom")).errors) ∧
    ((reportOf {} exIncident
        (.ok { brainInitialState {} exIncident with critic_score := 86/100 })).status =
      "completed") := by
  refine ⟨(run_report_status {} exIncident (.error "boom")).1 "boom" rfl, ?_⟩
  exact (((run_report_status {} exIncident
      (.ok { brainInitialState {} exIncident with critic_score := 86/100 })).2
      _ rfl).1).2 (Or.inl (by norm_num [brainInitialState]))

/-- C2.  The conditional edge after the critic targets `fix_advisor` exactly
when `critic_score ≥ critic_threshold` or `iteration ≥ max_iterations`, and
loops back to `supervisor` exactly otherwise; `iteration` is incremented
exactly once per supervisor entry; consequently a run with
`max_iterations ≥ 1` makes at most `max_iterations` supervisor entries. -/
theorem critic_loop_routing_and_termination (cfg : BrainEngineConfig) :
    (∀ s : BrainState, routeTarget cfg s = "fix_advisor" ↔
      (cfg.critic_threshold ≤ s.critic_score ∨ cfg.max_iterations ≤ s.iteration)) ∧
    (∀ s : BrainState, routeTarget cfg s = "supervisor" ↔
      ¬(cfg.critic_threshold ≤ s.critic_score ∨ cfg.max_iterations ≤ s.iteration)) ∧
    (∀ s : BrainState, (stubCycle s).iteration = s.iteration + 1) ∧
    (∀ score : ℕ → ℚ, 1 ≤ cfg.max_iterations →
      supervisorEntries score cfg.critic_threshold cfg.max_iterations ≤
        cfg.max_iterations) := by
  refine ⟨?_, ?_, stubCycle_iteration, ?_⟩
  · intro s
    unfold routeTarget routeAfterCritic
    by_cases h1 : cfg.critic_threshold ≤ s.critic_score
    · simp [h1]
    · by_cases h2 : cfg.max_iterations ≤ s.iteration
      · simp [h1, h2]
      · simp [h1, h2]
  · intro s
    unfold routeTarget routeAfterCritic
    by_cases h1 : cfg.critic_threshold ≤ s.critic_score
    · simp [h1]
    · by_cases h2 : cfg.max_iterations ≤ s.iteration
      · simp [h1, h2]
      · simp [h1, h2]
  · intro score h1
    have := supervisorEntriesFrom_le score cfg.critic_threshold cfg.max_iterations
      cfg.max_iterations 0 (by omega) (by omega)
    unfold supervisorEntries
    omega

/-- Witness for `critic_loop_routing_and_termination`: with default
configuration, a state with critic score 0.86 is routed to `fix_advisor`,
and a run whose critic always scores 0.5 makes at most 3 supervisor
entries. -/
theorem critic_loop_routing_and_termination_witness :
    routeTarget {} { brainInitialState {} exIncident with critic_score := 86/100 } =
      "fix_advisor" ∧
    supervisorEntries (fun _ => 1/2) (80/100 : ℚ) 3 ≤ 3 := by
  constructor
  · exact ((critic_loop_routing_and_termination {}).1 _).2
      (Or.inl (by norm_num [brainInitialState]))
  · exact (critic_loop_routing_and_termination
      { critic_threshold := 80/100, fix_confidence_threshold := 75/100,
        max_iterations := 3 }).2.2.2 (fun _ => 1/2) (by norm_num)

/-! ### Per-stage projection lemmas (fields each stage leaves unchanged) -/

theorem supervisorStub_incident (s : BrainState) :
    (supervisorStub s).incident = s.incident := rfl

theorem meshScoutStub_incident (s : BrainState) :
    (meshScoutStub s).incident = s.incident := by
  simp only [meshScoutStub]; split <;> rfl

theorem gitScoutStub_incident (s : BrainState) :
    (gitScoutStub s).incident = s.incident := by
  unfold gitScoutStub; split <;> rfl

theorem metricAnalystStub_incident (s : BrainState) :
    (metricAnalystStub s).incident = s.incident := by
  simp only [metricAnalystStub]
  split
  · split <;> rfl
  · rfl

theorem rcaSynthesizerStub_incident (s : BrainState) :
    (rcaSynthesizerStub s).incident = s.incident := rfl

theorem criticStub_incident (s : BrainState) :
    (criticStub s).incident = s.incident := by
  unfold criticStub; split <;> rfl

theorem fixAdvisorStub_incident (s : BrainState) :
    (fixAdvisorStub s).incident = s.incident := by
  unfold fixAdvisorStub; split <;> rfl

theorem supervisorStub_hypotheses (s : BrainState) :
    (supervisorStub s).hypotheses = s.hypotheses := rfl

theorem meshScoutStub_hypotheses (s : BrainState) :
    (meshScoutStub s).hypotheses = s.hypotheses := by
  simp only [meshScoutStub]; split <;> rfl

theorem gitScoutStub_hypotheses (s : BrainState) :
    (gitScoutStub s).hypotheses = s.hypotheses := by
  unfold gitScoutStub; split <;> rfl

theorem metricAnalystStub_hypotheses (s : BrainState) :
    (metricAnalystStub s).hypotheses = s.hypotheses := by
  simp only [metricAnalystStub]
  split
  · split <;> rfl
  · rfl

theorem criticStub_hypotheses (s : BrainState) :
    (criticStub s).hypotheses = s.hypotheses := by
  unfold criticStub; split <;> rfl

theorem fixAdvisorStub_hypotheses (s : BrainState) :
    (fixAdvisorStub s).hypotheses = s.hypotheses := by
  unfold fixAdvisorStub; split <;> rfl

theorem fixAdvisorStub_critic_score (s : BrainState) :
    (fixAdvisorStub s).critic_score = s.critic_score := by
  unfold fixAdvisorStub; split <;> rfl

/-- The deterministic synthesizer stub with a (truthy) linked deployment
produces exactly one hypothesis: "Recent rollout regression" at confidence
0.86. -/
theorem rcaSynthesizerStub_hypotheses_deploy (s : BrainState)
    (h : optStrTruthy s.incident.deployment_id = true) :
    (rcaSynthesizerStub s).hypotheses =
      [⟨"Recent rollout regression", "Error spike aligns with deployment window.",
        86/100, pyDedupe s.evidence_refs⟩] := by
  simp [rcaSynthesizerStub, h]

/-- Critic stub score on a single-hypothesis state. -/
theorem criticStub_score_single (s : BrainState) (hyp : Hypothesis)
    (h : s.hypotheses = [hyp]) :
    (criticStub s).critic_score =
      max 0 (min 1 (hyp.confidence - max 0 ((2/100) * ((s.iteration : ℚ) - 1)))) := by
  simp [criticStub, h, pyMaxByConfidence]

/-- Fix-advisor stub confidence on a single-hypothesis state:
`round(min(1, 0.9 * mean(confidence)), 2)` with a one-element mean. -/
theorem fixAdvisorStub_confidence_single (s : BrainState) (hyp : Hypothesis)
    (h : s.hypotheses = [hyp]) :
    (fixAdvisorStub s).fix_confidence =
      pyRound2 (min 1 (hyp.confidence / 1 * (9/10))) := by
  simp [fixAdvisorStub, h]

/-- C8.  Stub mode (no LLM, no mesh driver, no graph index), an incident with
a linked deployment, default thresholds: the run produces exactly one
hypothesis "Recent rollout regression" with confidence 0.86, critic score
0.86, fix confidence 0.77 = round(0.86·0.9, 2), terminal status `completed`,
and a final iteration counter of 1. -/
theorem stub_deployment_run (inc : ApprovedIncident) (d : String)
    (hdep : inc.deployment_id = some d) (hd : d ≠ "")
    (hmesh : inc.mesh_events = []) :
    (engineRunStub {} inc).hypotheses.map Hypothesis.title =
        ["Recent rollout regression"] ∧
    (engineRunStub {} inc).hypotheses.map Hypothesis.confidence = [86/100] ∧
    (engineRunStub {} inc).critic_score = 86/100 ∧
    (engineRunStub {} inc).fix_confidence = 77/100 ∧
    (engineRunStub {} inc).status = "completed" ∧
    (engineRunStub {} inc).meta_iteration = some 1 := by
  have htruthy : optStrTruthy inc.deployment_id = true := by
    simp [optStrTruthy, hdep, hd]
  set s0 : BrainState := brainInitialState {} inc with hs0
  set t : BrainState :=
    metricAnalystStub (gitScoutStub (meshScoutStub
      (supervisorStub { s0 with iteration := s0.iteration + 1 }))) with ht
  have ht_inc : t.incident = inc := by
    rw [ht, metricAnalystStub_incident, gitScoutStub_incident, meshScoutStub_incident,
      supervisorStub_incident]
    rfl
  have ht_iter : t.iteration = 1 := by
    rw [ht, metricAnalystStub_iteration, gitScoutStub_iteration, meshScoutStub_iteration,
      supervisorStub_iteration]
    rfl
  have hcycle : stubCycle s0 = criticStub (rcaSynthesizerStub t) := rfl
  have hsyn : (rcaSynthesizerStub t).hypotheses =
      [⟨"Recent rollout regression", "Error spike aligns with deployment window.",
        86/100, pyDedupe t.evidence_refs⟩] :=
    rcaSynthesizerStub_hypotheses_deploy t (by rw [ht_inc]; exact htruthy)
  have hsyn_iter : (rcaSynthesizerStub t).iteration = 1 := by
    rw [rcaSynthesizerStub_iteration, ht_iter]
  have hscore : (stubCycle s0).critic_score = 86/100 := by
    rw [hcycle, criticStub_score_single _ _ hsyn, hsyn_iter]
    norm_num
  have hhyps : (stubCycle s0).hypotheses =
      [⟨"Recent rollout regression", "Error spike aligns with deployment window.",
        86/100, pyDedupe t.evidence_refs⟩] := by
    rw [hcycle, criticStub_hypotheses, hsyn]
  have hiter : (stubCycle s0).iteration = 1 := by
    rw [stubCycle_iteration]; rfl
  have hroute : routeAfterCritic {} (stubCycle s0) = "done" := by
    unfold routeAfterCritic
    rw [hscore]
    norm_num
  have hrun : runStub {} inc = fixAdvisorStub (stubCycle s0) := by
    show runStubFrom {} 3 s0 = _
    show (if routeAfterCritic {} (stubCycle s0) = "done"
        then fixAdvisorStub (stubCycle s0) else runStubFrom {} 2 (stubCycle s0)) = _
    rw [if_pos hroute]
  have hfix : (fixAdvisorStub (stubCycle s0)).fix_confidence = 77/100 := by
    rw [fixAdvisorStub_confidence_single _ _ hhyps]
    have h1 : min 1 ((86:ℚ)/100 / 1 * (9/10)) = 387/500 := by norm_num
    have h2 : (387:ℚ)/500 * 100 = 387/5 := by norm_num
    have h3 : ⌊(387:ℚ)/5⌋ = 77 := by
      rw [Int.floor_eq_iff]
      norm_num
    have h4 : pyRoundHalfEven (387/5) = 77 := by
      unfold pyRoundHalfEven
      rw [h3]
      norm_num
    show pyRound2 (min 1 ((86:ℚ)/100 / 1 * (9/10))) = 77/100
    rw [h1]
    unfold pyRound2
    rw [h2, h4]
    norm_num
  refine ⟨?_, ?_, ?_, ?_, ?_, ?_⟩
  · show (reportOf {} inc (.ok (runStub {} inc))).hypotheses.map Hypothesis.title = _
    rw [hrun]
    show ((fixAdvisorStub (stubCycle s0)).hypotheses).map Hypothesis.title = _
    rw [fixAdvisorStub_hypotheses, hhyps]
    rfl
  · show (reportOf {} inc (.ok (runStub {} inc))).hypotheses.map Hypothesis.confidence = _
    rw [hrun]
    show ((fixAdvisorStub (stubCycle s0)).hypotheses).map Hypothesis.confidence = _
    rw [fixAdvisorStub_hypotheses, hhyps]
    rfl
  · show (reportOf {} inc (.ok (runStub {} inc))).critic_score = _
    rw [hrun]
    show (fixAdvisorStub (stubCycle s0)).critic_score = _
    rw [fixAdvisorStub_critic_score, hscore]
  · show (reportOf {} inc (.ok (runStub {} inc))).fix_confidence = _
    rw [hrun]
    exact hfix
  · show (reportOf {} inc (.ok (runStub {} inc))).status = _
    rw [hrun]
    show (if (80:ℚ)/100 ≤ (fixAdvisorStub (stubCycle s0)).critic_score ∨
        (75:ℚ)/100 ≤ (fixAdvisorStub (stubCycle s0)).fix_confidence
      then "completed" else "escalated") = "completed"
    rw [fixAdvisorStub_critic_score, hscore]
    norm_num
  · show (reportOf {} inc (.ok (runStub {} inc))).meta_iteration = _
    rw [hrun]
    show some (fixAdvisorStub (stubCycle s0)).iteration = _
    rw [fixAdvisorStub_iteration, hiter]

/-- Witness for `stub_deployment_run` at a concrete incident. -/
theorem stub_deployment_run_witness :
    (engineRunStub {} exIncident).hypotheses.map Hypothesis.title =
        ["Recent rollout regression"] ∧
    (engineRunStub {} exIncident).hypotheses.map Hypothesis.confidence = [86/100] ∧
    (engineRunStub {} exIncident).critic_score = 86/100 ∧
    (engineRunStub {} exIncident).fix_confidence = 77/100 ∧
    (engineRunStub {} exIncident).status = "completed" ∧
    (engineRunStub {} exIncident).meta_iteration = some 1 :=
  stub_deployment_run exIncident "deploy-1" rfl (by decide) rfl

/-! ### Evidence-ref behaviour of each stage -/

theorem supervisorStub_refs (s : BrainState) :
    (supervisorStub s).evidence_refs =
      pyDedupe (s.evidence_refs ++ ["incident:" ++ s.incident.incident_id]) := rfl

theorem meshScoutStub_refs (s : BrainState) :
    (meshScoutStub s).evidence_refs = pyDedupe s.evidence_refs := by
  simp only [meshScoutStub]; split <;> rfl

/-- `git_scout` with no graph index appends the deployment evidence ref (when
a deployment is linked) and performs **no** deduplication on this path. -/
theorem gitScoutStub_refs (s : BrainState) :
    (gitScoutStub s).evidence_refs =
      s.evidence_refs ++
        (if optStrTruthy s.incident.deployment_id then
          ["deploy:" ++ s.incident.deployment_id.getD ""] else []) := by
  by_cases h : optStrTruthy s.incident.deployment_id
  · simp [gitScoutStub, h]
  · simp [gitScoutStub, h]

theorem metricAnalystStub_refs_nodup (s : BrainState) :
    (metricAnalystStub s).evidence_refs.Nodup := by
  simp only [metricAnalystStub]
  split
  · split
    · exact pyDedupe_nodup _
    · exact pyDedupe_nodup _
  · exact pyDedupe_nodup _

/-- The full list `metric_analyst` passes to its final `_dedupe` call
(`src/rca/brain/nodes.py` lines 418-436): the incoming `evidence_refs`, then
`metric:<service>:p99`, then the branch-dependent suspect/log refs appended
in its body. -/
def metricAppendedRefs (s : BrainState) : List String :=
  let refs0 := s.evidence_refs ++ ["metric:" ++ s.incident.service ++ ":p99"]
  if s.suspect_services.length ≤ 1 then
    let p := findSuspectsFromMesh s.incident
    if p.1 ≠ [] then
      refs0 ++ p.1.flatMap (fun svc => ["mesh-suspect:" ++ svc, "logs:" ++ svc])
    else refs0
  else
    refs0 ++ s.suspect_services.tail.map (fun svc => "logs:" ++ svc)

theorem metricAnalystStub_refs (s : BrainState) :
    (metricAnalystStub s).evidence_refs = pyDedupe (metricAppendedRefs s) := by
  simp only [metricAnalystStub, metricAppendedRefs]
  split
  · split
    · rfl
    · rfl
  · rfl

/-- The list `metric_analyst` dedupes always extends the incoming
`evidence_refs` on the right, so the deduped output keeps first-insertion
order relative to the input. -/
theorem metricAppendedRefs_extends (s : BrainState) :
    ∃ extra : List String, metricAppendedRefs s =
      s.evidence_refs ++ ("metric:" ++ s.incident.service ++ ":p99") :: extra := by
  simp only [metricAppendedRefs]
  split
  · split
    · exact ⟨_, List.append_assoc _ _ _⟩
    · exact ⟨[], rfl⟩
  · exact ⟨_, List.append_assoc _ _ _⟩

theorem rcaSynthesizerStub_refs (s : BrainState) :
    (rcaSynthesizerStub s).evidence_refs = s.evidence_refs := rfl

theorem criticStub_refs (s : BrainState) :
    (criticStub s).evidence_refs = s.evidence_refs := by
  unfold criticStub; split <;> rfl

theorem fixAdvisorStub_refs (s : BrainState) :
    (fixAdvisorStub s).evidence_refs = s.evidence_refs := by
  unfold fixAdvisorStub; split <;> rfl

/-- C9 (amended).  In stub mode, `supervisor`, `mesh_scout` and
`metric_analyst` always return a duplicate-free `evidence_refs` in
first-insertion order: each ends in `_dedupe`, which keeps the first
occurrence of each ref — `pyDedupe_cons` — so the output is a subsequence of
the full appended input (for `metric_analyst` that input is
`metricAppendedRefs`, the incoming refs followed by the refs its body
appends, so order relative to the input is preserved);
`rca_synthesizer`, `critic` and `fix_advisor` leave `evidence_refs`
unchanged, so they preserve the invariant.  `git_scout` however appends the
deployment ref *without* deduplication, so its output can transiently contain
a duplicate (see the counterexample); the claim as stated — no duplicates
after *every* stage, including iterations after the first — fails at
`git_scout`. -/
theorem evidence_refs_stage_invariant :
    (∀ s : BrainState, (supervisorStub s).evidence_refs.Nodup ∧
      (supervisorStub s).evidence_refs.Sublist
        (s.evidence_refs ++ ["incident:" ++ s.incident.incident_id])) ∧
    (∀ s : BrainState, (meshScoutStub s).evidence_refs.Nodup ∧
      (meshScoutStub s).evidence_refs.Sublist s.evidence_refs) ∧
    (∀ s : BrainState, (metricAnalystStub s).evidence_refs.Nodup ∧
      (metricAnalystStub s).evidence_refs = pyDedupe (metricAppendedRefs s) ∧
      (metricAnalystStub s).evidence_refs.Sublist (metricAppendedRefs s) ∧
      ∃ extra : List String, metricAppendedRefs s =
        s.evidence_refs ++ ("metric:" ++ s.incident.service ++ ":p99") :: extra) ∧
    (∀ s : BrainState, (rcaSynthesizerStub s).evidence_refs = s.evidence_refs) ∧
    (∀ s : BrainState, (criticStub s).evidence_refs = s.evidence_refs) ∧
    (∀ s : BrainState, (fixAdvisorStub s).evidence_refs = s.evidence_refs) ∧
    (∀ s : BrainState, (gitScoutStub s).evidence_refs =
      s.evidence_refs ++
        (if optStrTruthy s.incident.deployment_id then
          ["deploy:" ++ s.incident.deployment_id.getD ""] else [])) := by
  refine ⟨?_, ?_, ?_, rcaSynthesizerStub_refs,
    criticStub_refs, fixAdvisorStub_refs, gitScoutStub_refs⟩
  · intro s
    rw [supervisorStub_refs]
    exact ⟨pyDedupe_nodup _, pyDedupe_sublist _⟩
  · intro s
    rw [meshScoutStub_refs]
    exact ⟨pyDedupe_nodup _, pyDedupe_sublist _⟩
  · intro s
    refine ⟨metricAnalystStub_refs_nodup s, metricAnalystStub_refs s, ?_,
      metricAppendedRefs_extends s⟩
    rw [metricAnalystStub_refs]
    exact pyDedupe_sublist _

/-- A configuration whose critic threshold (0.9) exceeds the stub confidence
(0.86), forcing a second iteration. -/
def cfgHighThreshold : BrainEngineConfig :=
  { critic_threshold := 9/10, fix_confidence_threshold := 75/100, max_iterations := 3 }

/-- The first stub cycle on an incident with a (truthy) linked deployment
always scores 0.86: the synthesizer stub's single hypothesis has confidence
0.86 and the critic decay is zero on iteration 1. -/
theorem stubCycle_initial_score (cfg : BrainEngineConfig) (inc : ApprovedIncident)
    (d : String) (hdep : inc.deployment_id = some d) (hd : d ≠ "") :
    (stubCycle (brainInitialState cfg inc)).critic_score = 86/100 := by
  have htruthy : optStrTruthy inc.deployment_id = true := by
    simp [optStrTruthy, hdep, hd]
  set s0 : BrainState := brainInitialState cfg inc with hs0
  set t : BrainState :=
    metricAnalystStub (gitScoutStub (meshScoutStub
      (supervisorStub { s0 with iteration := s0.iteration + 1 }))) with ht
  have ht_inc : t.incident = inc := by
    rw [ht, metricAnalystStub_incident, gitScoutStub_incident, meshScoutStub_incident,
      supervisorStub_incident]
    rfl
  have ht_iter : t.iteration = 1 := by
    rw [ht, metricAnalystStub_iteration, gitScoutStub_iteration, meshScoutStub_iteration,
      supervisorStub_iteration]
    rfl
  have hcycle : stubCycle s0 = criticStub (rcaSynthesizerStub t) := rfl
  have hsyn : (rcaSynthesizerStub t).hypotheses =
      [⟨"Recent rollout regression", "Error spike aligns with deployment window.",
        86/100, pyDedupe t.evidence_refs⟩] :=
    rcaSynthesizerStub_hypotheses_deploy t (by rw [ht_inc]; exact htruthy)
  have hsyn_iter : (rcaSynthesizerStub t).iteration = 1 := by
    rw [rcaSynthesizerStub_iteration, ht_iter]
  rw [hcycle, criticStub_score_single _ _ hsyn, hsyn_iter]
  norm_num

/-- C9 counterexample.  On a stub run with a linked deployment and critic
threshold 0.9, the critic routes `"refine"` after the first pass (so the
second supervisor entry is reached), and the state produced by `git_scout` on
the second pass contains the string `"deploy:deploy-1"` twice: its
`evidence_refs` has a duplicate, contradicting the claim that after every
stage return the list has no duplicates. -/
theorem evidence_refs_gitscout_duplicate :
    routeAfterCritic cfgHighThreshold
        (stubCycle (brainInitialState cfgHighThreshold exIncident)) = "refine" ∧
    ¬ (gitScoutStub (meshScoutStub (supervisorStub
        { stubCycle (brainInitialState cfgHighThreshold exIncident) with
          iteration :=
            (stubCycle (brainInitialState cfgHighThreshold exIncident)).iteration +
              1 }))).evidence_refs.Nodup := by
  constructor
  · have hs : (stubCycle (brainInitialState cfgHighThreshold exIncident)).critic_score =
        86/100 :=
      stubCycle_initial_score cfgHighThreshold exIncident "deploy-1" rfl (by decide)
    have hi : (stubCycle (brainInitialState cfgHighThreshold exIncident)).iteration = 1 := by
      rw [stubCycle_iteration]; rfl
    unfold routeAfterCritic
    rw [hs, hi]
    rw [if_neg (by norm_num [cfgHighThreshold]), if_neg (by norm_num [cfgHighThreshold])]
  · decide


/-! ## Differential Indexer: property sanitisation
(`src/rca/indexing/differential_indexer.py` lines 191-217) -/

/-- A Python value as stored in node metadata.  `none` is Python `None`;
`str`/`int`/`float`/`bool` are the `_PRIMITIVE` types (line 54); `list` and
`dict` are the containers; `other` is any other object, carrying the string
`str(v)` would produce. -/
inductive PyVal where
  | none : PyVal
  | str (s : String) : PyVal
  | int (n : ℤ) : PyVal
  | float (q : ℚ) : PyVal
  | bool (b : Bool) : PyVal
  | list (xs : List PyVal) : PyVal
  | dict (kvs : List (String × PyVal)) : PyVal
  | other (pyRepr : String) : PyVal

/-- `isinstance(v, _PRIMITIVE)` with `_PRIMITIVE = (str, int, float, bool)`. -/
def isPrimitive : PyVal → Bool
  | .str _ => true
  | .int _ => true
  | .float _ => true
  | .bool _ => true
  | _ => false

/-- `v is None`. -/
def pyIsNone : PyVal → Bool
  | .none => true
  | _ => false

/-- Minimal `json.dumps` escaping for string content (quote and backslash;
further control-character escapes are immaterial to the claims). -/
def jsonEscape (s : String) : String :=
  s.foldl (fun acc c =>
    acc ++ (if c = '\"' then "\\\"" else if c = '\\' then "\\\\" else String.singleton c)) ""

mutual
/-- Model of `json.dumps` for the metadata values (`_sanitize_properties`
JSON-encodes dicts and mixed lists).  For `other` values `json.dumps` would
raise; the encoder totalises with the carried repr — a case
`_sanitize_properties` never reaches, since it only JSON-encodes values whose
top constructor is `list` or `dict`. -/
def jsonEncode : PyVal → String
  | .none => "null"
  | .str s => "\"" ++ jsonEscape s ++ "\""
  | .int n => toString n
  | .float q => toString q
  | .bool b => if b then "true" else "false"
  | .list xs => "[" ++ jsonEncodeList xs ++ "]"
  | .dict kvs => "\x7b" ++ jsonEncodeKVs kvs ++ "\x7d"
  | .other r => r

def jsonEncodeList : List PyVal → String
  | [] => ""
  | [x] => jsonEncode x
  | x :: xs => jsonEncode x ++ ", " ++ jsonEncodeList xs

def jsonEncodeKVs : List (String × PyVal) → String
  | [] => ""
  | [kv] => "\"" ++ jsonEscape kv.1 ++ "\": " ++ jsonEncode kv.2
  | kv :: kvs => "\"" ++ jsonEscape kv.1 ++ "\": " ++ jsonEncode kv.2 ++ ", " ++ jsonEncodeKVs kvs
end

/-- The per-value branch of `_sanitize_properties` (lines 202-216): `None` is
dropped, primitives kept, all-primitive lists kept, mixed lists and dicts
JSON-encoded, anything else stringified by `str(v)`. -/
def sanitizeValue : PyVal → Option PyVal
  | .none => Option.none
  | .str s => some (.str s)
  | .int n => some (.int n)
  | .float q => some (.float q)
  | .bool b => some (.bool b)
  | .list xs =>
    if xs.all isPrimitive then some (.list xs)
    else some (.str (jsonEncode (.list xs)))
  | .dict kvs => some (.str (jsonEncode (.dict kvs)))
  | .other r => some (.str r)

/-- `_sanitize_properties` (lines 191-217) over an insertion-ordered property
map. -/
def sanitizeProperties (props : List (String × PyVal)) : List (String × PyVal) :=
  props.filterMap (fun kv => (sanitizeValue kv.2).map (fun v => (kv.1, v)))

theorem sanitizeValue_shape (v w : PyVal) (h : sanitizeValue v = some w) :
    isPrimitive w = true ∨ ∃ xs, w = PyVal.list xs ∧ xs.all isPrimitive = true := by
  cases v with
  | none => exact absurd h (by simp [sanitizeValue])
  | str s =>
    simp only [sanitizeValue, Option.some.injEq] at h
    subst h; left; rfl
  | int n =>
    simp only [sanitizeValue, Option.some.injEq] at h
    subst h; left; rfl
  | float q =>
    simp only [sanitizeValue, Option.some.injEq] at h
    subst h; left; rfl
  | bool b =>
    simp only [sanitizeValue, Option.some.injEq] at h
    subst h; left; rfl
  | list xs =>
    simp only [sanitizeValue] at h
    split at h
    · rename_i hall
      simp only [Option.some.injEq] at h
      subst h
      right; exact ⟨xs, rfl, hall⟩
    · simp only [Option.some.injEq] at h
      subst h; left; rfl
  | dict kvs =>
    simp only [sanitizeValue, Option.some.injEq] at h
    subst h; left; rfl
  | other r =>
    simp only [sanitizeValue, Option.some.injEq] at h
    subst h; left; rfl

/-- C6.  Every value in the sanitised property map is a primitive or a list
of primitives (JSON-encoded and stringified values being `str` primitives);
null-valued entries are dropped; dicts are JSON-encoded, mixed-typed lists
are JSON-encoded, and any other non-primitive value is stringified. -/
theorem sanitize_properties_spec (props : List (String × PyVal)) :
    (∀ kv ∈ sanitizeProperties props,
      isPrimitive kv.2 = true ∨
        ∃ xs, kv.2 = PyVal.list xs ∧ xs.all isPrimitive = true) ∧
    (∀ p1 p2 (k : String), props = p1 ++ (k, PyVal.none) :: p2 →
      sanitizeProperties props = sanitizeProperties (p1 ++ p2)) ∧
    (∀ k d, (k, PyVal.dict d) ∈ props →
      (k, PyVal.str (jsonEncode (PyVal.dict d))) ∈ sanitizeProperties props) ∧
    (∀ k xs, (k, PyVal.list xs) ∈ props → xs.all isPrimitive = false →
      (k, PyVal.str (jsonEncode (PyVal.list xs))) ∈ sanitizeProperties props) ∧
    (∀ k r, (k, PyVal.other r) ∈ props →
      (k, PyVal.str r) ∈ sanitizeProperties props) := by
  refine ⟨?_, ?_, ?_, ?_, ?_⟩
  · rintro ⟨k, v⟩ hkv
    rw [sanitizeProperties, List.mem_filterMap] at hkv
    obtain ⟨⟨k0, v0⟩, hmem, hf⟩ := hkv
    rw [Option.map_eq_some'] at hf
    obtain ⟨w, hw, heq⟩ := hf
    injection heq with h1 h2
    subst h1; subst h2
    exact sanitizeValue_shape v0 _ hw
  · rintro p1 p2 k rfl
    rw [sanitizeProperties, sanitizeProperties, List.filterMap_append,
      List.filterMap_append, List.filterMap_cons]
    rfl
  · intro k d hmem
    rw [sanitizeProperties, List.mem_filterMap]
    exact ⟨(k, PyVal.dict d), hmem, rfl⟩
  · intro k xs hmem hmix
    rw [sanitizeProperties, List.mem_filterMap]
    refine ⟨(k, PyVal.list xs), hmem, ?_⟩
    simp [sanitizeValue, hmix]
  · intro k r hmem
    rw [sanitizeProperties, List.mem_filterMap]
    exact ⟨(k, PyVal.other r), hmem, rfl⟩

/-- Witness for `sanitize_properties_spec` on a concrete property map with a
null, a dict, a mixed-typed list and an opaque object. -/
theorem sanitize_properties_spec_witness :
    sanitizeProperties
        [("kn", PyVal.none), ("kd", PyVal.dict [("x", PyVal.int 1)])] =
      sanitizeProperties [("kd", PyVal.dict [("x", PyVal.int 1)])] ∧
    ("kd", PyVal.str (jsonEncode (PyVal.dict [("x", PyVal.int 1)]))) ∈
      sanitizeProperties
        [("kn", PyVal.none), ("kd", PyVal.dict [("x", PyVal.int 1)]),
         ("kl", PyVal.list [PyVal.int 1, PyVal.dict []]),
         ("ko", PyVal.other "obj")] ∧
    ("kl", PyVal.str (jsonEncode (PyVal.list [PyVal.int 1, PyVal.dict []]))) ∈
      sanitizeProperties
        [("kn", PyVal.none), ("kd", PyVal.dict [("x", PyVal.int 1)]),
         ("kl", PyVal.list [PyVal.int 1, PyVal.dict []]),
         ("ko", PyVal.other "obj")] ∧
    ("ko", PyVal.str "obj") ∈
      sanitizeProperties
        [("kn", PyVal.none), ("kd", PyVal.dict [("x", PyVal.int 1)]),
         ("kl", PyVal.list [PyVal.int 1, PyVal.dict []]),
         ("ko", PyVal.other "obj")] := by
  refine ⟨?_, ?_, ?_, ?_⟩
  · exact (sanitize_properties_spec _).2.1 []
      [("kd", PyVal.dict [("x", PyVal.int 1)])] "kn" rfl
  · exact (sanitize_properties_spec _).2.2.1 "kd" [("x", PyVal.int 1)]
      (List.mem_cons_of_mem _ (List.mem_cons_self _ _))
  · exact (sanitize_properties_spec _).2.2.2.1 "kl" [PyVal.int 1, PyVal.dict []]
      (List.mem_cons_of_mem _ (List.mem_cons_of_mem _ (List.mem_cons_self _ _))) rfl
  · exact (sanitize_properties_spec _).2.2.2.2 "ko" "obj"
      (List.mem_cons_of_mem _ (List.mem_cons_of_mem _ (List.mem_cons_of_mem _
        (List.mem_cons_self _ _))))

/-! ## Differential Indexer: diff projection
(`src/rca/indexing/differential_indexer.py` lines 220-324).

Diff text is modelled line-by-line, each line a `List Char` (the result of
Python's `splitlines`). -/

/-- `int(...)` over a digit run. -/
def digitsToNat (ds : List Char) : ℕ :=
  ds.foldl (fun n c => 10 * n + (c.toNat - '0'.toNat)) 0

/-- The `_HUNK_HEADER_RE` regex `^@@ -(?P<start>\d+)(?:,(?P<length>\d+))? \+`
(line 220-222) applied at the start of one line: returns
`(start, some length)` or `(start, none)` when the `,length` group is absent.
Digits are ASCII (`\d` also matches other Unicode digits, which never occur
in unified diffs).  Maximal-munch digit runs coincide with the regex's
backtracking semantics here because each digit group must be followed by a
non-digit (`,` or ` `). -/
def parseHunkHeader : List Char → Option (ℕ × Option ℕ)
  | '@' :: '@' :: ' ' :: '-' :: rest =>
    let ds := rest.takeWhile Char.isDigit
    let rest1 := rest.dropWhile Char.isDigit
    if ds = [] then Option.none
    else
      match rest1 with
      | ' ' :: '+' :: _ => some (digitsToNat ds, Option.none)
      | ',' :: rest2 =>
        let ds2 := rest2.takeWhile Char.isDigit
        let rest3 := rest2.dropWhile Char.isDigit
        if ds2 = [] then Option.none
        else
          match rest3 with
          | ' ' :: '+' :: _ => some (digitsToNat ds, some (digitsToNat ds2))
          | _ => Option.none
      | _ => Option.none
  | _ => Option.none

/-- Range computed from a parsed header in the regex fallback of
`_parse_hunks` (lines 256-261): `length` defaults to 1 when the group is
absent, and `(start, start + max(length, 1) - 1)` clamps a zero length. -/
def rangeOfHeader (p : ℕ × Option ℕ) : ℕ × ℕ :=
  (p.1, p.1 + max (p.2.getD 1) 1 - 1)

/-- The regex-fallback path of `_parse_hunks` (lines 255-261): `finditer`
with `MULTILINE` anchors at line starts, i.e. one potential match per line. -/
def parseHunksFallback (lines : List (List Char)) : List (ℕ × ℕ) :=
  lines.filterMap (fun l => (parseHunkHeader l).map rangeOfHeader)

/-- The range computed for one hunk in the strict (`unidiff.PatchSet`) path
of `_parse_hunks` (lines 247-251): `(start, start + max(source_length, 1) - 1)`
from the hunk's parsed `source_start`/`source_length`. -/
def strictHunkRange (source_start source_length : ℕ) : ℕ × ℕ :=
  (source_start, source_start + max source_length 1 - 1)

/-- `_overlaps` (lines 264-269): inclusive interval intersection. -/
def overlaps (node_start node_end : ℕ) (ranges : List (ℕ × ℕ)) : Bool :=
  ranges.any (fun r => decide (node_start ≤ r.2) && decide (r.1 ≤ node_end))

/-- The initial-status assignment of `DifferentialIndexer._index_file`
(lines 549-554): file-added ⇒ ADDED; else a node overlapping a (non-empty)
hunk list ⇒ MODIFIED; else UNCHANGED. -/
def nodeStatusOf (fileAdded : Bool) (hunkRanges : List (ℕ × ℕ)) (s e : ℕ) : String :=
  if fileAdded then "ADDED"
  else if hunkRanges ≠ [] ∧ overlaps s e hunkRanges = true then "MODIFIED"
  else "UNCHANGED"

/-- C10.  A hunk header with an explicit source length of 0 (pure insertion,
e.g. `@@ -5,0 +6,2 @@`) is clamped to the single-line range `(start, start)`
in both the strict-parser range computation and the regex fallback, and a
symbol whose line range touches that source line is classified MODIFIED. -/
theorem zero_length_hunk_modified :
    (∀ start : ℕ, strictHunkRange start 0 = (start, start)) ∧
    (∀ start : ℕ, rangeOfHeader (start, some 0) = (start, start)) ∧
    parseHunkHeader "@@ -5,0 +6,2 @@".toList = some (5, some 0) ∧
    parseHunksFallback ["@@ -5,0 +6,2 @@".toList] = [(5, 5)] ∧
    (∀ s e start : ℕ, s ≤ start → start ≤ e →
      nodeStatusOf false [(start, start)] s e = "MODIFIED") := by
  refine ⟨?_, ?_, by decide, by decide, ?_⟩
  · intro start
    simp [strictHunkRange]
  · intro start
    simp [rangeOfHeader]
  · intro s e start hs he
    unfold nodeStatusOf
    rw [if_neg (by simp), if_pos]
    refine ⟨by simp, ?_⟩
    simp [overlaps, hs, he]

/-- Witness for `zero_length_hunk_modified`: the `@@ -5,0 +6,2 @@` hunk makes
a symbol spanning lines 3-7 MODIFIED. -/
theorem zero_length_hunk_modified_witness :
    strictHunkRange 5 0 = (5, 5) ∧
    nodeStatusOf false [(5, 5)] 3 7 = "MODIFIED" :=
  ⟨zero_length_hunk_modified.1 5,
   zero_length_hunk_modified.2.2.2.2 3 7 5 (by decide) (by decide)⟩

/-! ### `_extract_patch_text`, manual-fallback path (lines 304-324) -/

/-- `startswith` on char-list lines. -/
def startsWithL (pre l : List Char) : Bool := pre.isPrefixOf l

/-- The loop state of the manual parser in `_extract_patch_text`:
collected output lines, the `in_hunk` flag, and the source-line counter. -/
structure ExtractAcc where
  result : List (List Char)
  inHunk : Bool
  sourceLine : ℕ

/-- One iteration of the manual parser in `_extract_patch_text`
(lines 304-324): a hunk header resets the counter; `-` lines (not `---`) are
emitted only when the counter is inside `[ns, ne]` and advance the counter;
`+` lines (not `+++`) are always emitted and do not advance it; every other
line except a `\\`-prefixed one advances the counter. -/
def extractStep (ns ne : ℕ) (st : ExtractAcc) (line : List Char) : ExtractAcc :=
  match parseHunkHeader line with
  | some p => { st with sourceLine := p.1, inHunk := true }
  | Option.none =>
    if st.inHunk = false then st
    else if startsWithL ['-'] line && !startsWithL ['-', '-', '-'] line then
      if ns ≤ st.sourceLine ∧ st.sourceLine ≤ ne then
        { st with result := st.result ++ [line], sourceLine := st.sourceLine + 1 }
      else { st with sourceLine := st.sourceLine + 1 }
    else if startsWithL ['+'] line && !startsWithL ['+', '+', '+'] line then
      { st with result := st.result ++ [line] }
    else if !startsWithL ['\\', '\\'] line then
      { st with sourceLine := st.sourceLine + 1 }
    else st

/-- The manual-fallback path of `_extract_patch_text` (lines 304-324); the
Python function joins the collected lines with newlines, modelled here as the
line list itself. -/
def extractPatchTextFallback (lines : List (List Char)) (ns ne : ℕ) : List (List Char) :=
  (lines.foldl (extractStep ns ne) ⟨[], false, 0⟩).result

/-- Modelled from the spec: the walker the specification describes, which
emits only `+` and `-` lines *whose source position falls within
`[node_start, node_end]`* — i.e. `+` lines are range-gated exactly like `-`
lines.  Used solely to compare the spec's description with the code. -/
def extractStepClaimed (ns ne : ℕ) (st : ExtractAcc) (line : List Char) : ExtractAcc :=
  match parseHunkHeader line with
  | some p => { st with sourceLine := p.1, inHunk := true }
  | Option.none =>
    if st.inHunk = false then st
    else if startsWithL ['-'] line && !startsWithL ['-', '-', '-'] line then
      if ns ≤ st.sourceLine ∧ st.sourceLine ≤ ne then
        { st with result := st.result ++ [line], sourceLine := st.sourceLine + 1 }
      else { st with sourceLine := st.sourceLine + 1 }
    else if startsWithL ['+'] line && !startsWithL ['+', '+', '+'] line then
      if ns ≤ st.sourceLine ∧ st.sourceLine ≤ ne then
        { st with result := st.result ++ [line] }
      else st
    else if !startsWithL ['\\', '\\'] line then
      { st with sourceLine := st.sourceLine + 1 }
    else st

def extractPatchTextClaimed (lines : List (List Char)) (ns ne : ℕ) : List (List Char) :=
  (lines.foldl (extractStepClaimed ns ne) ⟨[], false, 0⟩).result

/-- A `+` hunk-body line: starts with `+` but is not a `+++` file header. -/
def plusBody (l : List Char) : Bool :=
  startsWithL ['+'] l && !startsWithL ['+', '+', '+'] l

/-- The lines after the first hunk header of the diff.  The manual parser
skips everything before the first header (`in_hunk` starts false) and never
leaves a hunk once entered, so these are exactly the lines it walks as hunk
body. -/
def afterFirstHeader : List (List Char) → List (List Char)
  | [] => []
  | l :: ls =>
    match parseHunkHeader l with
    | some _ => ls
    | Option.none => afterFirstHeader ls

theorem not_plus_of_minus {l : List Char} (h : startsWithL ['-'] l = true) :
    startsWithL ['+'] l = false := by
  cases l with
  | nil => simp [startsWithL, List.isPrefixOf] at h
  | cons c cs =>
    simp [startsWithL, List.isPrefixOf] at h ⊢
    rw [← h]
    decide

theorem not_minus_of_plus {l : List Char} (h : startsWithL ['+'] l = true) :
    startsWithL ['-'] l = false := by
  cases l with
  | nil => simp [startsWithL, List.isPrefixOf] at h
  | cons c cs =>
    simp [startsWithL, List.isPrefixOf] at h ⊢
    rw [← h]
    decide

/-- The shape of an emitted line: a `-` line that is not a `---` header, or a
`+` line that is not a `+++` header. -/
def lineShape (l : List Char) : Prop :=
  (startsWithL ['-'] l = true ∧ startsWithL ['-', '-', '-'] l = false) ∨
    (startsWithL ['+'] l = true ∧ startsWithL ['+', '+', '+'] l = false)

theorem extractStep_shape (ns ne : ℕ) (st : ExtractAcc) (line : List Char)
    (h : ∀ l ∈ st.result, lineShape l) :
    ∀ l ∈ (extractStep ns ne st line).result, lineShape l := by
  intro l hl
  unfold extractStep at hl
  revert hl
  cases hp : parseHunkHeader line with
  | some p => intro hl; exact h l hl
  | none =>
    simp only []
    split
    · intro hl; exact h l hl
    · split
      · rename_i hminus
        rw [Bool.and_eq_true, Bool.not_eq_true'] at hminus
        split
        · intro hl
          simp only [List.mem_append, List.mem_singleton] at hl
          rcases hl with hl | rfl
          · exact h l hl
          · exact Or.inl hminus
        · intro hl; exact h l hl
      · split
        · rename_i hplus
          rw [Bool.and_eq_true, Bool.not_eq_true'] at hplus
          intro hl
          simp only [List.mem_append, List.mem_singleton] at hl
          rcases hl with hl | rfl
          · exact h l hl
          · exact Or.inr hplus
        · split
          · intro hl; exact h l hl
          · intro hl; exact h l hl

theorem extractFold_shape (ns ne : ℕ) :
    ∀ (lines : List (List Char)) (st : ExtractAcc),
      (∀ l ∈ st.result, lineShape l) →
      ∀ l ∈ (lines.foldl (extractStep ns ne) st).result, lineShape l := by
  intro lines
  induction lines with
  | nil => intro st h; exact h
  | cons x xs ih =>
    intro st h
    exact ih (extractStep ns ne st x) (extractStep_shape ns ne st x h)

theorem extractStep_plus_agree (ns ne ns' ne' : ℕ) (st st' : ExtractAcc)
    (line : List Char) (hh : st.inHunk = st'.inHunk)
    (hs : st.sourceLine = st'.sourceLine)
    (hr : st.result.filter (fun l => startsWithL ['+'] l) =
      st'.result.filter (fun l => startsWithL ['+'] l)) :
    (extractStep ns ne st line).inHunk = (extractStep ns' ne' st' line).inHunk ∧
    (extractStep ns ne st line).sourceLine = (extractStep ns' ne' st' line).sourceLine ∧
    (extractStep ns ne st line).result.filter (fun l => startsWithL ['+'] l) =
      (extractStep ns' ne' st' line).result.filter (fun l => startsWithL ['+'] l) := by
  unfold extractStep
  cases hp : parseHunkHeader line with
  | some p => exact ⟨rfl, rfl, hr⟩
  | none =>
    simp only []
    rw [hh, hs]
    split
    · exact ⟨hh, hs, hr⟩
    · split
      · rename_i hminus
        rw [Bool.and_eq_true, Bool.not_eq_true'] at hminus
        have hfilter : ∀ res : List (List Char),
            (res ++ [line]).filter (fun l => startsWithL ['+'] l) =
              res.filter (fun l => startsWithL ['+'] l) := by
          intro res
          rw [List.filter_append]
          simp [not_plus_of_minus hminus.1]
        split
        · split
          · exact ⟨rfl, rfl, by rw [hfilter, hfilter, hr]⟩
          · exact ⟨rfl, rfl, by rw [hfilter, hr]⟩
        · split
          · exact ⟨rfl, rfl, by rw [hfilter, hr]⟩
          · exact ⟨rfl, rfl, hr⟩
      · split
        · refine ⟨rfl, rfl, ?_⟩
          rw [List.filter_append, List.filter_append, hr]
        · split
          · exact ⟨rfl, rfl, hr⟩
          · exact ⟨hh, hs, hr⟩

theorem extractFold_plus_agree (ns ne ns' ne' : ℕ) :
    ∀ (lines : List (List Char)) (st st' : ExtractAcc),
      st.inHunk = st'.inHunk → st.sourceLine = st'.sourceLine →
      st.result.filter (fun l => startsWithL ['+'] l) =
        st'.result.filter (fun l => startsWithL ['+'] l) →
      (lines.foldl (extractStep ns ne) st).result.filter (fun l => startsWithL ['+'] l) =
        (lines.foldl (extractStep ns' ne') st').result.filter
          (fun l => startsWithL ['+'] l) := by
  intro lines
  induction lines with
  | nil => intro st st' _ _ hr; exact hr
  | cons x xs ih =>
    intro st st' hh hs hr
    obtain ⟨h1, h2, h3⟩ := extractStep_plus_agree ns ne ns' ne' st st' x hh hs hr
    exact ih _ _ h1 h2 h3

theorem extractStep_minus_empty (ns ne : ℕ) (hne : ne < ns) (st : ExtractAcc)
    (line : List Char)
    (h : st.result.filter (fun l => startsWithL ['-'] l) = []) :
    (extractStep ns ne st line).result.filter (fun l => startsWithL ['-'] l) = [] := by
  unfold extractStep
  cases hp : parseHunkHeader line with
  | some p => exact h
  | none =>
    simp only []
    split
    · exact h
    · split
      · split
        · rename_i hrange
          omega
        · exact h
      · split
        · rename_i hplus
          rw [Bool.and_eq_true, Bool.not_eq_true'] at hplus
          rw [List.filter_append]
          simp [not_minus_of_plus hplus.1, h]
        · split
          · exact h
          · exact h

theorem extractFold_minus_empty (ns ne : ℕ) (hne : ne < ns) :
    ∀ (lines : List (List Char)) (st : ExtractAcc),
      st.result.filter (fun l => startsWithL ['-'] l) = [] →
      (lines.foldl (extractStep ns ne) st).result.filter
        (fun l => startsWithL ['-'] l) = [] := by
  intro lines
  induction lines with
  | nil => intro st h; exact h
  | cons x xs ih =>
    intro st h
    exact ih _ (extractStep_minus_empty ns ne hne st x h)

/-- A line the hunk-header regex matches starts with `@@ -`. -/
theorem parseHunkHeader_eq_some (line : List Char) (p : ℕ × Option ℕ)
    (h : parseHunkHeader line = some p) :
    ∃ rest, line = '@' :: '@' :: ' ' :: '-' :: rest := by
  rw [parseHunkHeader.eq_def] at h
  split at h
  · rename_i rest
    exact ⟨rest, rfl⟩
  · exact Option.noConfusion h

theorem header_not_plus (line : List Char) (p : ℕ × Option ℕ)
    (h : parseHunkHeader line = some p) : startsWithL ['+'] line = false := by
  obtain ⟨rest, rfl⟩ := parseHunkHeader_eq_some line p h
  rfl

theorem header_not_minus (line : List Char) (p : ℕ × Option ℕ)
    (h : parseHunkHeader line = some p) : startsWithL ['-'] line = false := by
  obtain ⟨rest, rfl⟩ := parseHunkHeader_eq_some line p h
  rfl

/-- A hunk header resets the source counter to the header's start and raises
`in_hunk`; nothing is emitted. -/
theorem extractStep_header (ns ne : ℕ) (st : ExtractAcc) (line : List Char)
    (p : ℕ × Option ℕ) (hp : parseHunkHeader line = some p) :
    extractStep ns ne st line = { st with sourceLine := p.1, inHunk := true } := by
  unfold extractStep
  rw [hp]

/-- Before the first hunk header every line is skipped outright. -/
theorem extractStep_skip (ns ne : ℕ) (st : ExtractAcc) (line : List Char)
    (hp : parseHunkHeader line = Option.none) (hh : st.inHunk = false) :
    extractStep ns ne st line = st := by
  unfold extractStep
  rw [hp]
  simp [hh]

/-- Inside a hunk, a `-` line that is not a `---` header is emitted **iff**
the tracked source position lies within `[ns, ne]`; either way the counter
advances by one. -/
theorem extractStep_minus_iff (ns ne : ℕ) (st : ExtractAcc) (line : List Char)
    (hh : st.inHunk = true) (hm : startsWithL ['-'] line = true)
    (hm3 : startsWithL ['-', '-', '-'] line = false) :
    ((extractStep ns ne st line).result = st.result ++ [line] ↔
      (ns ≤ st.sourceLine ∧ st.sourceLine ≤ ne)) ∧
    ((¬ (ns ≤ st.sourceLine ∧ st.sourceLine ≤ ne)) →
      (extractStep ns ne st line).result = st.result) ∧
    (extractStep ns ne st line).sourceLine = st.sourceLine + 1 ∧
    (extractStep ns ne st line).inHunk = true := by
  have hp : parseHunkHeader line = Option.none := by
    cases hq : parseHunkHeader line with
    | none => rfl
    | some p => rw [header_not_minus line p hq] at hm; exact Bool.noConfusion hm
  unfold extractStep
  rw [hp]
  simp only []
  rw [if_neg (by simp [hh]), if_pos (by rw [hm, hm3]; rfl)]
  by_cases hr : ns ≤ st.sourceLine ∧ st.sourceLine ≤ ne
  · rw [if_pos hr]
    exact ⟨⟨fun _ => hr, fun _ => rfl⟩, fun hc => absurd hr hc, rfl, hh⟩
  · rw [if_neg hr]
    refine ⟨⟨fun hc => ?_, fun hc => absurd hc hr⟩, fun _ => rfl, rfl, hh⟩
    exact absurd hc (by simp)

/-- Inside a hunk, a `+` line that is not a `+++` header is emitted
**unconditionally** — the node range plays no part — and the source counter
does not advance. -/
theorem extractStep_plus_emit (ns ne : ℕ) (st : ExtractAcc) (line : List Char)
    (hh : st.inHunk = true) (hp1 : startsWithL ['+'] line = true)
    (hp3 : startsWithL ['+', '+', '+'] line = false) :
    (extractStep ns ne st line).result = st.result ++ [line] ∧
    (extractStep ns ne st line).sourceLine = st.sourceLine ∧
    (extractStep ns ne st line).inHunk = true := by
  have hmm : startsWithL ['-'] line = false := not_minus_of_plus hp1
  have hp : parseHunkHeader line = Option.none := by
    cases hq : parseHunkHeader line with
    | none => rfl
    | some p => rw [header_not_plus line p hq] at hp1; exact Bool.noConfusion hp1
  unfold extractStep
  rw [hp]
  simp only []
  rw [if_neg (by simp [hh]), if_neg (by simp [hmm]), if_pos (by rw [hp1, hp3]; rfl)]
  exact ⟨rfl, rfl, hh⟩

/-- Inside a hunk, a context (or `---`/`+++` header) line is never emitted
and advances the source counter by one (only `\\`-prefixed lines leave it
untouched). -/
theorem extractStep_context (ns ne : ℕ) (st : ExtractAcc) (line : List Char)
    (hh : st.inHunk = true) (hnp : parseHunkHeader line = Option.none)
    (hm : (startsWithL ['-'] line && !startsWithL ['-', '-', '-'] line) = false)
    (hp : (startsWithL ['+'] line && !startsWithL ['+', '+', '+'] line) = false)
    (hb : startsWithL ['\\', '\\'] line = false) :
    (extractStep ns ne st line).result = st.result ∧
    (extractStep ns ne st line).sourceLine = st.sourceLine + 1 ∧
    (extractStep ns ne st line).inHunk = true := by
  unfold extractStep
  rw [hnp]
  simp only []
  rw [if_neg (by simp [hh]), if_neg (by simp [hm]), if_neg (by simp [hp]),
    if_pos (by rw [hb]; rfl)]
  exact ⟨rfl, rfl, hh⟩

/-- The code's step and the spec's position-gated walker keep the same
`in_hunk` flag, the same source counter, and emit exactly the same `-`
lines: they differ only on `+` lines. -/
theorem extractStep_minus_agree (ns ne : ℕ) (st st' : ExtractAcc)
    (line : List Char) (hh : st.inHunk = st'.inHunk)
    (hs : st.sourceLine = st'.sourceLine)
    (hr : st.result.filter (fun l => startsWithL ['-'] l) =
      st'.result.filter (fun l => startsWithL ['-'] l)) :
    (extractStep ns ne st line).inHunk = (extractStepClaimed ns ne st' line).inHunk ∧
    (extractStep ns ne st line).sourceLine =
      (extractStepClaimed ns ne st' line).sourceLine ∧
    (extractStep ns ne st line).result.filter (fun l => startsWithL ['-'] l) =
      (extractStepClaimed ns ne st' line).result.filter (fun l => startsWithL ['-'] l) := by
  unfold extractStep extractStepClaimed
  cases hp : parseHunkHeader line with
  | some p => exact ⟨rfl, rfl, hr⟩
  | none =>
    simp only []
    rw [hh, hs]
    split
    · exact ⟨hh, hs, hr⟩
    · split
      · split
        · refine ⟨rfl, rfl, ?_⟩
          rw [List.filter_append, List.filter_append, hr]
        · exact ⟨rfl, rfl, hr⟩
      · split
        · rename_i hplus
          rw [Bool.and_eq_true, Bool.not_eq_true'] at hplus
          have hfl : ∀ res : List (List Char),
              (res ++ [line]).filter (fun l => startsWithL ['-'] l) =
                res.filter (fun l => startsWithL ['-'] l) := by
            intro res
            rw [List.filter_append]
            simp [not_minus_of_plus hplus.1]
          split
          · exact ⟨rfl, rfl, by rw [hfl, hfl, hr]⟩
          · exact ⟨rfl, rfl, by rw [hfl, hr]⟩
        · split
          · exact ⟨rfl, rfl, hr⟩
          · exact ⟨hh, hs, hr⟩

theorem extractFold_minus_agree (ns ne : ℕ) :
    ∀ (lines : List (List Char)) (st st' : ExtractAcc),
      st.inHunk = st'.inHunk → st.sourceLine = st'.sourceLine →
      st.result.filter (fun l => startsWithL ['-'] l) =
        st'.result.filter (fun l => startsWithL ['-'] l) →
      (lines.foldl (extractStep ns ne) st).result.filter (fun l => startsWithL ['-'] l) =
        (lines.foldl (extractStepClaimed ns ne) st').result.filter
          (fun l => startsWithL ['-'] l) := by
  intro lines
  induction lines with
  | nil => intro st st' _ _ hr; exact hr
  | cons x xs ih =>
    intro st st' hh hs hr
    obtain ⟨h1, h2, h3⟩ := extractStep_minus_agree ns ne st st' x hh hs hr
    exact ih _ _ h1 h2 h3

/-- Inside a hunk, one step appends the line's `+`-contribution: the line
itself when it is a `+` body line, nothing otherwise. -/
theorem extractStep_plus_filter (ns ne : ℕ) (st : ExtractAcc) (line : List Char)
    (hh : st.inHunk = true) :
    (extractStep ns ne st line).inHunk = true ∧
    (extractStep ns ne st line).result.filter (fun l => startsWithL ['+'] l) =
      st.result.filter (fun l => startsWithL ['+'] l) ++
        (if plusBody line = true then [line] else []) := by
  unfold extractStep
  cases hp : parseHunkHeader line with
  | some p =>
    have hpb : plusBody line = false := by
      unfold plusBody
      rw [header_not_plus line p hp]
      rfl
    exact ⟨rfl, by rw [hpb]; simp⟩
  | none =>
    simp only []
    rw [if_neg (by simp [hh])]
    split
    · rename_i hminus
      rw [Bool.and_eq_true, Bool.not_eq_true'] at hminus
      have hpb : plusBody line = false := by
        unfold plusBody
        rw [not_plus_of_minus hminus.1]
        rfl
      split
      · refine ⟨hh, ?_⟩
        rw [hpb, List.filter_append]
        simp [not_plus_of_minus hminus.1]
      · exact ⟨hh, by rw [hpb]; simp⟩
    · split
      · rename_i hplus
        have hpb : plusBody line = true := hplus
        refine ⟨hh, ?_⟩
        rw [hpb, List.filter_append]
        rw [Bool.and_eq_true, Bool.not_eq_true'] at hplus
        simp [hplus.1]
      · rename_i hplus
        have hpb : plusBody line = false := by
          unfold plusBody
          exact Bool.not_eq_true _ ▸ Bool.of_not_eq_true hplus
        split
        · exact ⟨hh, by rw [hpb]; simp⟩
        · exact ⟨hh, by rw [hpb]; simp⟩

/-- Once inside a hunk, the `+` lines of the output are exactly all `+`
body lines of the remaining input, whatever the range. -/
theorem extractFold_plus_inHunk (ns ne : ℕ) :
    ∀ (lines : List (List Char)) (st : ExtractAcc), st.inHunk = true →
      (lines.foldl (extractStep ns ne) st).result.filter (fun l => startsWithL ['+'] l) =
        st.result.filter (fun l => startsWithL ['+'] l) ++ lines.filter plusBody := by
  intro lines
  induction lines with
  | nil => intro st _; simp
  | cons x xs ih =>
    intro st hh
    obtain ⟨h1, h2⟩ := extractStep_plus_filter ns ne st x hh
    rw [List.foldl_cons, ih _ h1, h2]
    by_cases hx : plusBody x = true
    · rw [if_pos hx, List.filter_cons_of_pos hx]
      simp
    · rw [if_neg hx, List.filter_cons_of_neg hx]
      simp

theorem extractFold_plus_preHunk (ns ne : ℕ) :
    ∀ (lines : List (List Char)) (st : ExtractAcc), st.inHunk = false →
      (lines.foldl (extractStep ns ne) st).result.filter (fun l => startsWithL ['+'] l) =
        st.result.filter (fun l => startsWithL ['+'] l) ++
          (afterFirstHeader lines).filter plusBody := by
  intro lines
  induction lines with
  | nil => intro st _; simp [afterFirstHeader]
  | cons x xs ih =>
    intro st hh
    rw [List.foldl_cons]
    cases hp : parseHunkHeader x with
    | some p =>
      rw [extractStep_header ns ne st x p hp,
        extractFold_plus_inHunk ns ne xs _ rfl]
      have ha : afterFirstHeader (x :: xs) = xs := by
        simp only [afterFirstHeader]
        rw [hp]
      rw [ha]
    | none =>
      rw [extractStep_skip ns ne st x hp hh, ih st hh]
      have ha : afterFirstHeader (x :: xs) = afterFirstHeader xs := by
        simp only [afterFirstHeader]
        rw [hp]
      rw [ha]

/-- C7 (amended).  The manual fallback of `_extract_patch_text` emits only
`+`/`-` lines and never context lines or `+++`/`---` file headers.  Its `-`
lines are gated exactly by the tracked source position: inside a hunk a `-`
(non-`---`) line is emitted **iff** the source counter lies in `[ns, ne]`
(the counter advancing either way), so the `-` lines of the output coincide
with those of the spec's position-gated walker `extractPatchTextClaimed`,
and an empty range (`ne < ns`) yields no `-` lines at all.  Its `+` lines
however are emitted *unconditionally*: inside a hunk every `+` (non-`+++`)
line is appended whatever the range (the counter not advancing), the `+`
lines of the output are exactly all `+` body lines after the first hunk
header, independent of `[node_start, node_end]` — contradicting the claim
that exactly the `±` lines with source position inside the range are
emitted (see the counterexample).  A context line only advances the counter
and a hunk header resets it, neither being emitted. -/
theorem extract_patch_text_fallback_spec :
    (∀ (lines : List (List Char)) (ns ne : ℕ) (l : List Char),
      l ∈ extractPatchTextFallback lines ns ne →
        (startsWithL ['-'] l = true ∧ startsWithL ['-', '-', '-'] l = false) ∨
        (startsWithL ['+'] l = true ∧ startsWithL ['+', '+', '+'] l = false)) ∧
    (∀ (lines : List (List Char)) (ns ne ns' ne' : ℕ),
      (extractPatchTextFallback lines ns ne).filter (fun l => startsWithL ['+'] l) =
        (extractPatchTextFallback lines ns' ne').filter (fun l => startsWithL ['+'] l)) ∧
    (∀ (lines : List (List Char)) (ns ne : ℕ), ne < ns →
      (extractPatchTextFallback lines ns ne).filter (fun l => startsWithL ['-'] l) = []) ∧
    (∀ (lines : List (List Char)) (ns ne : ℕ),
      (extractPatchTextFallback lines ns ne).filter (fun l => startsWithL ['-'] l) =
        (extractPatchTextClaimed lines ns ne).filter (fun l => startsWithL ['-'] l)) ∧
    (∀ (lines : List (List Char)) (ns ne : ℕ),
      (extractPatchTextFallback lines ns ne).filter (fun l => startsWithL ['+'] l) =
        (afterFirstHeader lines).filter plusBody) ∧
    (∀ (ns ne : ℕ) (st : ExtractAcc) (line : List Char),
      st.inHunk = true → startsWithL ['-'] line = true →
      startsWithL ['-', '-', '-'] line = false →
        ((extractStep ns ne st line).result = st.result ++ [line] ↔
          (ns ≤ st.sourceLine ∧ st.sourceLine ≤ ne)) ∧
        ((¬ (ns ≤ st.sourceLine ∧ st.sourceLine ≤ ne)) →
          (extractStep ns ne st line).result = st.result) ∧
        (extractStep ns ne st line).sourceLine = st.sourceLine + 1) ∧
    (∀ (ns ne : ℕ) (st : ExtractAcc) (line : List Char),
      st.inHunk = true → startsWithL ['+'] line = true →
      startsWithL ['+', '+', '+'] line = false →
        (extractStep ns ne st line).result = st.result ++ [line] ∧
        (extractStep ns ne st line).sourceLine = st.sourceLine) ∧
    (∀ (ns ne : ℕ) (st : ExtractAcc) (line : List Char),
      st.inHunk = true → parseHunkHeader line = Option.none →
      (startsWithL ['-'] line && !startsWithL ['-', '-', '-'] line) = false →
      (startsWithL ['+'] line && !startsWithL ['+', '+', '+'] line) = false →
      startsWithL ['\\', '\\'] line = false →
        (extractStep ns ne st line).result = st.result ∧
        (extractStep ns ne st line).sourceLine = st.sourceLine + 1) ∧
    (∀ (ns ne : ℕ) (st : ExtractAcc) (line : List Char) (p : ℕ × Option ℕ),
      parseHunkHeader line = some p →
        extractStep ns ne st line = { st with sourceLine := p.1, inHunk := true }) := by
  refine ⟨?_, ?_, ?_, ?_, ?_, ?_, ?_, ?_, ?_⟩
  · intro lines ns ne l hl
    exact extractFold_shape ns ne lines ⟨[], false, 0⟩ (by intro l hl; cases hl) l hl
  · intro lines ns ne ns' ne'
    exact extractFold_plus_agree ns ne ns' ne' lines ⟨[], false, 0⟩ ⟨[], false, 0⟩
      rfl rfl rfl
  · intro lines ns ne hne
    exact extractFold_minus_empty ns ne hne lines ⟨[], false, 0⟩ rfl
  · intro lines ns ne
    exact extractFold_minus_agree ns ne lines ⟨[], false, 0⟩ ⟨[], false, 0⟩ rfl rfl rfl
  · intro lines ns ne
    unfold extractPatchTextFallback
    rw [extractFold_plus_preHunk ns ne lines ⟨[], false, 0⟩ rfl]
    rfl
  · intro ns ne st line hh hm hm3
    obtain ⟨h1, h2, h3, _⟩ := extractStep_minus_iff ns ne st line hh hm hm3
    exact ⟨h1, h2, h3⟩
  · intro ns ne st line hh hp1 hp3
    obtain ⟨h1, h2, _⟩ := extractStep_plus_emit ns ne st line hh hp1 hp3
    exact ⟨h1, h2⟩
  · intro ns ne st line hh hnp hm hp hb
    obtain ⟨h1, h2, _⟩ := extractStep_context ns ne st line hh hnp hm hp hb
    exact ⟨h1, h2⟩
  · intro ns ne st line p hp
    exact extractStep_header ns ne st line p hp

/-- Witness for `extract_patch_text_fallback_spec` on concrete inputs: the
shape of an emitted line, the empty-range `-` filter, an in-range `-`
emission (counter 3 inside `[1, 5]`), an out-of-range `-` suppression
(counter 7 outside `[1, 5]`), an unconditional `+` emission at counter 7, a
context-line skip, and a header reset. -/
theorem extract_patch_text_fallback_spec_witness :
    ((startsWithL ['-'] "-old".toList = true ∧
        startsWithL ['-', '-', '-'] "-old".toList = false) ∨
      (startsWithL ['+'] "-old".toList = true ∧
        startsWithL ['+', '+', '+'] "-old".toList = false)) ∧
    (extractPatchTextFallback
        ["@@ -2,2 +2,2 @@".toList, " ctx".toList, "-old".toList, "+new".toList] 9 5).filter
      (fun l => startsWithL ['-'] l) = [] ∧
    ((extractStep 1 5 ⟨[], true, 3⟩ "-old".toList).result = [] ++ ["-old".toList] ↔
      (1 ≤ 3 ∧ 3 ≤ 5)) ∧
    (extractStep 1 5 ⟨[], true, 7⟩ "-old".toList).result = [] ∧
    (extractStep 1 5 ⟨[], true, 7⟩ "+new".toList).result = [] ++ ["+new".toList] ∧
    (extractStep 1 5 ⟨[], true, 7⟩ " ctx".toList).result = [] ∧
    extractStep 1 5 ⟨[], true, 7⟩ "@@ -10,2 +10,3 @@".toList =
      { result := [], inHunk := true, sourceLine := 10 } :=
  ⟨extract_patch_text_fallback_spec.1
      ["@@ -2,2 +2,2 @@".toList, " ctx".toList, "-old".toList, "+new".toList] 1 9
      "-old".toList (by decide),
   extract_patch_text_fallback_spec.2.2.1
      ["@@ -2,2 +2,2 @@".toList, " ctx".toList, "-old".toList, "+new".toList] 9 5
      (by decide),
   (extract_patch_text_fallback_spec.2.2.2.2.2.1 1 5 ⟨[], true, 3⟩ "-old".toList rfl
      (by decide) (by decide)).1,
   (extract_patch_text_fallback_spec.2.2.2.2.2.1 1 5 ⟨[], true, 7⟩ "-old".toList rfl
      (by decide) (by decide)).2.1 (by decide),
   (extract_patch_text_fallback_spec.2.2.2.2.2.2.1 1 5 ⟨[], true, 7⟩ "+new".toList rfl
      (by decide) (by decide)).1,
   (extract_patch_text_fallback_spec.2.2.2.2.2.2.2.1 1 5 ⟨[], true, 7⟩ " ctx".toList rfl
      (by decide) (by decide) (by decide) (by decide)).1,
   extract_patch_text_fallback_spec.2.2.2.2.2.2.2.2 1 5 ⟨[], true, 7⟩
      "@@ -10,2 +10,3 @@".toList (10, some 2) (by decide)⟩

/-- C7 counterexample.  For the diff
`@@ -10,2 +10,3 @@ / " ctx" / "+new" / " ctx2"` and node range `[1, 5]`, the
hunk's source range is `(10, 11)`, disjoint from `[1, 5]` — so the claimed
behaviour ("exactly the `+`/`-` lines whose source position falls within the
range", formalised by `extractPatchTextClaimed`) emits nothing — yet
`_extract_patch_text` emits the `+new` line. -/
theorem extract_patch_text_plus_outside_range :
    extractPatchTextFallback
        ["@@ -10,2 +10,3 @@".toList, " ctx".toList, "+new".toList, " ctx2".toList] 1 5 =
      ["+new".toList] ∧
    extractPatchTextClaimed
        ["@@ -10,2 +10,3 @@".toList, " ctx".toList, "+new".toList, " ctx2".toList] 1 5 =
      [] ∧
    parseHunksFallback
        ["@@ -10,2 +10,3 @@".toList, " ctx".toList, "+new".toList, " ctx2".toList] =
      [(10, 11)] ∧
    overlaps 1 5 [(10, 11)] = false := by
  refine ⟨by decide, by decide, by decide, by decide⟩

/-! ## Differential Indexer: node identity
(`src/rca/indexing/differential_indexer.py` lines 48-51, 554-564).

`_node_id` hashes with `hashlib.sha1(...).hexdigest()`; SHA-1 is implemented
here over byte lists (bytes as `ℕ < 256`, 32-bit words as `ℕ` reduced mod
`2^32`). -/

/-- 32-bit left rotation (inputs below `2^32`). -/
def rotl32 (n x : ℕ) : ℕ := ((x <<< n) % 4294967296) ||| (x >>> (32 - n))

/-- UTF-8 encoding of one character (Python `str.encode()`). -/
def utf8EncodeCharM (c : Char) : List ℕ :=
  let n := c.toNat
  if n < 128 then [n]
  else if n < 2048 then [192 ||| (n >>> 6), 128 ||| (n &&& 63)]
  else if n < 65536 then
    [224 ||| (n >>> 12), 128 ||| ((n >>> 6) &&& 63), 128 ||| (n &&& 63)]
  else
    [240 ||| (n >>> 18), 128 ||| ((n >>> 12) &&& 63), 128 ||| ((n >>> 6) &&& 63),
     128 ||| (n &&& 63)]

/-- UTF-8 bytes of a string (`raw.encode()` at line 51). -/
def utf8Bytes (s : String) : List ℕ :=
  s.data.foldr (fun c acc => utf8EncodeCharM c ++ acc) []

/-- SHA-1 message padding: `0x80`, zeros to 56 mod 64, 8-byte big-endian bit
length. -/
def sha1Pad (msg : List ℕ) : List ℕ :=
  let len := msg.length
  let bitLen := 8 * len
  let padZeros := (119 - len % 64) % 64
  msg ++ [128] ++ List.replicate padZeros 0 ++
    [(bitLen >>> 56) % 256, (bitLen >>> 48) % 256, (bitLen >>> 40) % 256,
     (bitLen >>> 32) % 256, (bitLen >>> 24) % 256, (bitLen >>> 16) % 256,
     (bitLen >>> 8) % 256, bitLen % 256]

/-- Big-endian 32-bit words from bytes. -/
def wordsOfBytes : List ℕ → List ℕ
  | b0 :: b1 :: b2 :: b3 :: rest =>
    (((b0 * 256 + b1) * 256 + b2) * 256 + b3) :: wordsOfBytes rest
  | _ => []

/-- 16-word blocks (fuel-structured so the kernel can evaluate it; the fuel
`ws.length` always suffices). -/
def blocks16Go : ℕ → List ℕ → List (List ℕ)
  | 0, _ => []
  | _, [] => []
  | fuel + 1, ws => ws.take 16 :: blocks16Go fuel (ws.drop 16)

def blocks16 (ws : List ℕ) : List (List ℕ) := blocks16Go ws.length ws

structure Sha1State where
  a : ℕ
  b : ℕ
  c : ℕ
  d : ℕ
  e : ℕ

/-- Message-schedule expansion of a 16-word block to 80 words. -/
def sha1Extend (block : List ℕ) : List ℕ :=
  (List.range 80).foldl
    (fun acc i =>
      if i < 16 then acc ++ [block.getD i 0]
      else acc ++ [rotl32 1 (Nat.xor (Nat.xor (acc.getD (i - 3) 0) (acc.getD (i - 8) 0))
        (Nat.xor (acc.getD (i - 14) 0) (acc.getD (i - 16) 0)))]) []

/-- One SHA-1 round, fed `(round index, schedule word)`. -/
def sha1Round (st : Sha1State) (iw : ℕ × ℕ) : Sha1State :=
  let i := iw.1
  let w := iw.2
  let f :=
    if i < 20 then (st.b &&& st.c) ||| ((Nat.xor st.b 4294967295) &&& st.d)
    else if i < 40 then Nat.xor (Nat.xor st.b st.c) st.d
    else if i < 60 then (st.b &&& st.c) ||| (st.b &&& st.d) ||| (st.c &&& st.d)
    else Nat.xor (Nat.xor st.b st.c) st.d
  let k :=
    if i < 20 then 1518500249
    else if i < 40 then 1859775393
    else if i < 60 then 2400959708
    else 3395469782
  let temp := (rotl32 5 st.a + f + st.e + k + w) % 4294967296
  ⟨temp, st.a, rotl32 30 st.b, st.c, st.d⟩

/-- Compression of one block into the running state. -/
def sha1Block (h : Sha1State) (block : List ℕ) : Sha1State :=
  let w := sha1Extend block
  let r := ((List.range 80).zip w).foldl sha1Round h
  ⟨(h.a + r.a) % 4294967296, (h.b + r.b) % 4294967296, (h.c + r.c) % 4294967296,
   (h.d + r.d) % 4294967296, (h.e + r.e) % 4294967296⟩

def hexDigit (n : ℕ) : Char :=
  if n < 10 then Char.ofNat (48 + n) else Char.ofNat (87 + n)

/-- Lower-case hex rendering of one 32-bit word (8 digits). -/
def wordHex (x : ℕ) : List Char :=
  [hexDigit ((x >>> 28) % 16), hexDigit ((x >>> 24) % 16), hexDigit ((x >>> 20) % 16),
   hexDigit ((x >>> 16) % 16), hexDigit ((x >>> 12) % 16), hexDigit ((x >>> 8) % 16),
   hexDigit ((x >>> 4) % 16), hexDigit (x % 16)]

/-- `hashlib.sha1(bytes).hexdigest()`: the full 40-hex-character digest. -/
def sha1Hex (msg : List ℕ) : String :=
  let ws := wordsOfBytes (sha1Pad msg)
  let f := (blocks16 ws).foldl sha1Block
    ⟨1732584193, 4023233417, 2562383102, 271733878, 3285377520⟩
  String.mk (wordHex f.a ++ wordHex f.b ++ wordHex f.c ++ wordHex f.d ++ wordHex f.e)

theorem wordHex_length (x : ℕ) : (wordHex x).length = 8 := rfl

/-- `hexdigest()` always yields 40 characters — the full, untruncated SHA-1
digest. -/
theorem sha1Hex_length (msg : List ℕ) : (sha1Hex msg).length = 40 := by
  unfold sha1Hex
  show (String.mk _).length = 40
  have hmk : ∀ cs : List Char, (String.mk cs).length = cs.length := fun _ => rfl
  rw [hmk]
  simp [List.length_append, wordHex_length]

/-- `_node_id` (lines 48-51): SHA-1 hex digest of
`f"{service}:{file_path}:{symbol_name}"`.  Note that the `commit_sha`
parameter is accepted but *not* part of the hashed string. -/
def nodeId (service commit_sha file_path symbol_name : String) : String :=
  sha1Hex (utf8Bytes (service ++ ":" ++ file_path ++ ":" ++ symbol_name))

/-- The node id stamped by `_index_file` (line 563):
`_node_id(service, commit_sha, path, f"{name}:{start}")`. -/
def indexNodeId (service commit_sha path name : String) (start : ℕ) : String :=
  nodeId service commit_sha path (name ++ ":" ++ toString start)

/-- The node-id list produced by `_index_file` for a file parsed into symbols
`(name, start_line)`. -/
def indexFileNodeIds (service commit_sha path : String) (syms : List (String × ℕ)) :
    List String :=
  syms.map (fun p => indexNodeId service commit_sha path p.1 p.2)

theorem string_append_assoc (a b c : String) : a ++ b ++ c = a ++ (b ++ c) := by
  apply congrArg String.mk
  exact List.append_assoc a.data b.data c.data

/-- C4 (amended).  `node_id` equals the *full* 40-character SHA-1 hex digest
of `service ":" file_path ":" symbol_name ":" start_line` (no truncation); it
is a pure function of those four components — independent of the commit sha,
of randomness and of any clock — so indexing the same
`(service, commit, file)` twice yields identical id lists. -/
theorem node_id_full_sha1_deterministic :
    (∀ service c₁ c₂ path name,
      nodeId service c₁ path name = nodeId service c₂ path name) ∧
    (∀ service commit path name (start : ℕ),
      indexNodeId service commit path name start =
        sha1Hex (utf8Bytes (service ++ ":" ++ path ++ ":" ++ name ++ ":" ++
          toString start))) ∧
    (∀ service commit path name, (nodeId service commit path name).length = 40) ∧
    (∀ service c₁ c₂ path syms,
      indexFileNodeIds service c₁ path syms = indexFileNodeIds service c₂ path syms) := by
  refine ⟨fun _ _ _ _ _ => rfl, ?_, fun _ _ _ _ => sha1Hex_length _, fun _ _ _ _ _ => rfl⟩
  intro service commit path name start
  unfold indexNodeId nodeId
  rw [← string_append_assoc (service ++ ":" ++ path ++ ":") (name ++ ":") (toString start)]
  rw [← string_append_assoc (service ++ ":" ++ path ++ ":") name ":"]

set_option maxRecDepth 1000000 in
/-- C4 counterexample to "truncated to a short hash": a concrete node id is
the untruncated 40-character digest, byte-for-byte equal to
`sha1("svc:a.py:f:3")`. -/
theorem node_id_not_truncated :
    indexNodeId "svc" "c0ffee" "a.py" "f" 3 =
      "fe141e0844bf09a4dd596194eef347f5d27fd7c6" ∧
    (indexNodeId "svc" "c0ffee" "a.py" "f" 3).length = 40 := by
  constructor
  · decide
  · exact sha1Hex_length _

/-! ## Differential Indexer: deletion retention
(`src/rca/indexing/differential_indexer.py` lines 493-501, 621-683). -/

/-- A persisted graph node: `text` plus the metadata keys the retention path
reads and writes.  Store nodes always carry their `file_path` (stamped at
index time), so `metadata.get("file_path", path)` is modelled by the field
itself. -/
structure GNode where
  text : String
  status : String
  file_path : String
  prior_path : Option String := none
  commit_sha : String
  service : String
  symbol_name : String := ""
  symbol_kind : String := ""
  node_id : String
deriving Repr, DecidableEq

/-- Modelled from the spec: the graph-store `upsert_nodes` operation of the
external property-graph backend (spec §4.1), idempotent by `id_` — an
existing node with the same id is overwritten in place, otherwise the node is
appended. -/
def upsertNodes (store : List GNode) (new : List GNode) : List GNode :=
  new.foldl
    (fun st n =>
      if st.any (fun m => m.node_id == n.node_id) then
        st.map (fun m => if m.node_id == n.node_id then n else m)
      else st ++ [n])
    store

/-- `_retain_deleted_nodes` (lines 621-683) applied to the queried `existing`
nodes: with no existing nodes, a single file-level tombstone; otherwise each
node is updated in place (text cleared, DELETED, prior path kept, commit
refreshed) and the count of updated nodes is returned. -/
def retainDeletedNodes (existing : List GNode) (path service commit_sha : String) :
    List GNode × ℕ :=
  if existing = [] then
    ([{ text := "", status := "DELETED", file_path := path, prior_path := some path,
        commit_sha := commit_sha, service := service, symbol_name := path,
        symbol_kind := "file", node_id := nodeId service commit_sha path path }], 1)
  else
    let updated := existing.map (fun n =>
      { n with text := "", status := "DELETED", prior_path := some n.file_path,
               commit_sha := commit_sha })
    (updated, updated.length)

/-- The deletion branch of `_index_file` (lines 493-501) against a store:
query all nodes with this `file_path`, retain them, upsert the result.
Returns the new store and the reported count. -/
def indexFileDeleted (store : List GNode) (path service commit_sha : String) :
    List GNode × ℕ :=
  let existing := store.filter (fun n => n.file_path == path)
  let r := retainDeletedNodes existing path service commit_sha
  (upsertNodes store r.1, r.2)

theorem upsertNodes_ids (store new : List GNode)
    (h : ∀ n ∈ new, n.node_id ∈ store.map (fun m => m.node_id)) :
    (upsertNodes store new).map (fun m => m.node_id) =
      store.map (fun m => m.node_id) := by
  induction new generalizing store with
  | nil => rfl
  | cons n ns ih =>
    have hn : n.node_id ∈ store.map (fun m => m.node_id) :=
      h n (List.mem_cons_self n ns)
    have hany : store.any (fun m => m.node_id == n.node_id) = true := by
      rw [List.any_eq_true]
      obtain ⟨m, hm, hid⟩ := List.mem_map.1 hn
      exact ⟨m, hm, by rw [beq_iff_eq]; exact hid⟩
    have hstep : upsertNodes store (n :: ns) =
        upsertNodes (store.map (fun m => if m.node_id == n.node_id then n else m)) ns := by
      show List.foldl _ _ (n :: ns) = _
      rw [List.foldl_cons, if_pos hany]
      rfl
    have hmap : (store.map (fun m => if m.node_id == n.node_id then n else m)).map
        (fun m => m.node_id) = store.map (fun m => m.node_id) := by
      rw [List.map_map]
      apply List.map_congr_left
      intro m _
      show (if m.node_id == n.node_id then n else m).node_id = m.node_id
      by_cases hb : (m.node_id == n.node_id) = true
      · rw [if_pos hb]
        exact (beq_iff_eq.1 hb).symm
      · rw [if_neg hb]
    rw [hstep, ih _ ?_, hmap]
    intro x hx
    rw [hmap]
    exact h x (List.mem_cons_of_mem n hx)

/-- Upserting nodes whose ids are all already present leaves the store size
unchanged. -/
theorem upsertNodes_length (store new : List GNode)
    (h : ∀ n ∈ new, n.node_id ∈ store.map (fun m => m.node_id)) :
    (upsertNodes store new).length = store.length := by
  have hids := upsertNodes_ids store new h
  have := congrArg List.length hids
  simpa using this

/-- C5.  For a file-deletion diff: when the store holds nodes for the path,
each is upserted with text cleared, status DELETED, `prior_path` set to its
old `file_path` and `commit_sha` refreshed; the returned count equals the
number of those nodes and the store's node count is unchanged.  When no such
nodes exist, exactly one file-level tombstone (`symbol_kind = "file"`,
`symbol_name = path`) is upserted with count 1. -/
theorem deletion_retention_spec (store : List GNode) (path service commit : String) :
    (store.filter (fun n => n.file_path == path) ≠ [] →
      (∀ n ∈ (retainDeletedNodes (store.filter (fun n => n.file_path == path))
          path service commit).1,
        n.text = "" ∧ n.status = "DELETED" ∧ n.commit_sha = commit) ∧
      ((retainDeletedNodes (store.filter (fun n => n.file_path == path))
          path service commit).1.map (fun n => n.prior_path) =
        (store.filter (fun n => n.file_path == path)).map (fun n => some n.file_path)) ∧
      ((retainDeletedNodes (store.filter (fun n => n.file_path == path))
          path service commit).1.map (fun n => n.node_id) =
        (store.filter (fun n => n.file_path == path)).map (fun n => n.node_id)) ∧
      (retainDeletedNodes (store.filter (fun n => n.file_path == path))
          path service commit).2 =
        (store.filter (fun n => n.file_path == path)).length ∧
      (indexFileDeleted store path service commit).1.length = store.length) ∧
    (store.filter (fun n => n.file_path == path) = [] →
      (retainDeletedNodes (store.filter (fun n => n.file_path == path))
          path service commit).1 =
        [{ text := "", status := "DELETED", file_path := path,
           prior_path := some path, commit_sha := commit, service := service,
           symbol_name := path, symbol_kind := "file",
           node_id := nodeId service commit path path }] ∧
      (retainDeletedNodes (store.filter (fun n => n.file_path == path))
          path service commit).2 = 1) := by
  constructor
  · intro hne
    have hretain : retainDeletedNodes (store.filter (fun n => n.file_path == path))
        path service commit =
        ((store.filter (fun n => n.file_path == path)).map (fun n =>
          { n with text := "", status := "DELETED", prior_path := some n.file_path,
                   commit_sha := commit }),
         ((store.filter (fun n => n.file_path == path)).map (fun n =>
          { n with text := "", status := "DELETED", prior_path := some n.file_path,
                   commit_sha := commit })).length) := by
      rw [retainDeletedNodes, if_neg hne]
    refine ⟨?_, ?_, ?_, ?_, ?_⟩
    · intro n hn
      rw [hretain] at hn
      obtain ⟨m, _, rfl⟩ := List.mem_map.1 hn
      exact ⟨rfl, rfl, rfl⟩
    · rw [hretain]
      show (List.map _ _).map _ = _
      rw [List.map_map]
      rfl
    · rw [hretain]
      show (List.map _ _).map _ = _
      rw [List.map_map]
      rfl
    · rw [hretain]
      show (List.map _ _).length = _
      rw [List.length_map]
    · unfold indexFileDeleted
      apply upsertNodes_length
      intro n hn
      rw [hretain] at hn
      obtain ⟨m, hm, rfl⟩ := List.mem_map.1 hn
      show m.node_id ∈ _
      exact List.mem_map.2 ⟨m, List.mem_of_mem_filter hm, rfl⟩
  · intro hempty
    rw [retainDeletedNodes, if_pos hempty]
    exact ⟨rfl, rfl⟩

/-- Two symbol nodes for `src/LegacyAuth.cs`, as in the spec's
deletion-retention scenario. -/
def legacyNode1 : GNode :=
  { text := "class LegacyAuth", status := "UNCHANGED",
    file_path := "src/LegacyAuth.cs", prior_path := Option.none,
    commit_sha := "c0", service := "checkout-api", symbol_name := "LegacyAuth",
    symbol_kind := "class", node_id := "id1" }

def legacyNode2 : GNode :=
  { text := "void Login()", status := "UNCHANGED",
    file_path := "src/LegacyAuth.cs", prior_path := Option.none,
    commit_sha := "c0", service := "checkout-api", symbol_name := "Login",
    symbol_kind := "method", node_id := "id2" }

def legacyStore : List GNode := [legacyNode1, legacyNode2]

/-- Witness for `deletion_retention_spec`: the two-node store for
`src/LegacyAuth.cs`, and the tombstone branch on an empty store. -/
theorem deletion_retention_spec_witness :
    (retainDeletedNodes
        (legacyStore.filter (fun n => n.file_path == "src/LegacyAuth.cs"))
        "src/LegacyAuth.cs" "checkout-api" "c1").2 =
      (legacyStore.filter (fun n => n.file_path == "src/LegacyAuth.cs")).length ∧
    (indexFileDeleted legacyStore "src/LegacyAuth.cs" "checkout-api" "c1").1.length = 2 ∧
    (retainDeletedNodes
        (([] : List GNode).filter (fun n => n.file_path == "gone.py"))
        "gone.py" "svc" "c1").2 = 1 := by
  refine ⟨?_, ?_, ?_⟩
  · exact ((deletion_retention_spec legacyStore "src/LegacyAuth.cs" "checkout-api"
      "c1").1 (by decide)).2.2.2.1
  · have h := ((deletion_retention_spec legacyStore "src/LegacyAuth.cs" "checkout-api"
      "c1").1 (by decide)).2.2.2.2
    rw [h]
    rfl
  · exact ((deletion_retention_spec [] "gone.py" "svc" "c1").2 (by decide)).2

/-! ## Differential Indexer: status propagation
(`src/rca/indexing/differential_indexer.py` lines 141-177).

Nodes are modelled by their claim-relevant metadata: `file` (`file_path`),
`scopes` (the scope-chain key tuple
`tuple(s.get("name", "") for s in inclusive_scopes if isinstance(s, dict))`)
and `status`.  Propagation mutates only `status`, so the per-file groups and
the scope-key map — which the code builds from the live objects — coincide
with the ones computed from the input list. -/

inductive SymStatus where
  | added
  | modified
  | unchanged
  | deleted
  | moved
deriving Repr, DecidableEq

structure INode where
  file : String
  scopes : List String
  status : SymStatus
deriving Repr, DecidableEq

/-- Read a node by position (total, with an inert default). -/
def nodeAt (l : List INode) (i : ℕ) : INode := l.getD i ⟨"", [], .unchanged⟩

/-- The indices of `by_file[f]`, in node order. -/
def fileIndices (nodes : List INode) (f : String) : List ℕ :=
  (List.range nodes.length).filter (fun i => (nodeAt nodes i).file == f)

/-- `scope_to_node[key]` after the build loop: the **last** node of the group
whose scope key equals `key` (Python dict assignment overwrites). -/
def lastWithKey (nodes : List INode) (idxs : List ℕ) (key : List String) : Option ℕ :=
  idxs.foldl (fun acc j => if (nodeAt nodes j).scopes == key then some j else acc)
    Option.none

/-- `ancestor.metadata["status"] = STATUS_MODIFIED` guarded by
`== STATUS_UNCHANGED` (lines 175-176). -/
def upgradeAt (arr : List INode) (j : ℕ) : List INode :=
  if (nodeAt arr j).status = .unchanged then
    arr.set j { nodeAt arr j with status := .modified }
  else arr

/-- One step of the ancestor walk (lines 171-176): look up the map at
`key[:depth]` and upgrade the ancestor if present. -/
def walkStep (nodes : List INode) (idxs : List ℕ) (key : List String)
    (a : List INode) (d : ℕ) : List INode :=
  match lastWithKey nodes idxs (key.take d) with
  | some j => upgradeAt a j
  | Option.none => a

/-- The body of the per-node loop (lines 165-176): when the node's current
status is MODIFIED or ADDED, walk every strict prefix of its scope chain
(depths `len-1, …, 0`) and upgrade the mapped ancestor. -/
def processNode (nodes : List INode) (idxs : List ℕ) (arr : List INode) (i : ℕ) :
    List INode :=
  if (nodeAt arr i).status = .modified ∨ (nodeAt arr i).status = .added then
    (List.range (nodeAt arr i).scopes.length).reverse.foldl
      (walkStep nodes idxs (nodeAt arr i).scopes) arr
  else arr

/-- One file group of `_propagate_status_upward`. -/
def processFile (nodes : List INode) (arr : List INode) (f : String) : List INode :=
  (fileIndices nodes f).foldl (processNode nodes (fileIndices nodes f)) arr

/-- `_propagate_status_upward` (lines 141-177): group nodes by file in
first-appearance order and run the upgrade walk over each group. -/
def propagateStatusUpward (nodes : List INode) : List INode :=
  (pyDedupe (nodes.map (fun n => n.file))).foldl (processFile nodes) nodes

/-- `key` is a strict prefix of `k`: `key = k[:d]` for some `d < len k`. -/
def StrictScopePrefix (p k : List String) : Prop :=
  p.length < k.length ∧ p = k.take p.length

instance (p k : List String) : Decidable (StrictScopePrefix p k) := by
  unfold StrictScopePrefix
  infer_instance

theorem nodeAt_set_self (l : List INode) (i : ℕ) (x : INode) (h : i < l.length) :
    nodeAt (l.set i x) i = x := by
  unfold nodeAt
  rw [List.getD_eq_getElem?_getD, List.getElem?_set_self (by simpa using h)]
  rfl

theorem nodeAt_set_ne (l : List INode) (i j : ℕ) (x : INode) (h : i ≠ j) :
    nodeAt (l.set j x) i = nodeAt l i := by
  unfold nodeAt
  rw [List.getD_eq_getElem?_getD, List.getD_eq_getElem?_getD,
    List.getElem?_set_ne (by omega)]

theorem nodeAt_of_le_length (l : List INode) (i : ℕ) (h : l.length ≤ i) :
    nodeAt l i = ⟨"", [], .unchanged⟩ := by
  unfold nodeAt
  rw [List.getD_eq_getElem?_getD, List.getElem?_eq_none (by omega)]
  rfl

theorem mem_fileIndices (nodes : List INode) (f : String) (i : ℕ) :
    i ∈ fileIndices nodes f ↔ i < nodes.length ∧ (nodeAt nodes i).file = f := by
  unfold fileIndices
  rw [List.mem_filter, List.mem_range]
  constructor
  · rintro ⟨h1, h2⟩
    exact ⟨h1, by simpa using h2⟩
  · rintro ⟨h1, h2⟩
    exact ⟨h1, by simpa using h2⟩

theorem lastWithKey_spec (nodes : List INode) (idxs : List ℕ) (key : List String) :
    ∀ i, lastWithKey nodes idxs key = some i →
      i ∈ idxs ∧ (nodeAt nodes i).scopes = key := by
  suffices h : ∀ (l : List ℕ) (acc : Option ℕ),
      (∀ i, acc = some i → i ∈ idxs ∧ (nodeAt nodes i).scopes = key) →
      l ⊆ idxs →
      ∀ i, l.foldl (fun acc j =>
          if (nodeAt nodes j).scopes == key then some j else acc) acc = some i →
        i ∈ idxs ∧ (nodeAt nodes i).scopes = key by
    intro i hi
    exact h idxs Option.none (by intro i h; cases h) (fun _ h => h) i hi
  intro l
  induction l with
  | nil => intro acc hacc _ i hi; exact hacc i hi
  | cons j js ih =>
    intro acc hacc hsub i hi
    rw [List.foldl_cons] at hi
    refine ih _ ?_ (fun x hx => hsub (List.mem_cons_of_mem j hx)) i hi
    intro i' hi'
    by_cases hb : ((nodeAt nodes j).scopes == key) = true
    · rw [if_pos hb] at hi'
      injection hi' with h'
      subst h'
      exact ⟨hsub (List.mem_cons_self j js), by rw [← beq_iff_eq]; exact hb⟩
    · rw [if_neg hb] at hi'
      exact hacc i' hi'

theorem lastWithKey_eq_some (nodes : List INode) (idxs : List ℕ) (key : List String)
    (i : ℕ) (hi : i ∈ idxs) (hk : (nodeAt nodes i).scopes = key)
    (huniq : ∀ j ∈ idxs, (nodeAt nodes j).scopes = key → j = i) :
    lastWithKey nodes idxs key = some i := by
  suffices h : ∀ (l : List ℕ) (acc : Option ℕ),
      l ⊆ idxs → (i ∈ l ∨ acc = some i) →
      l.foldl (fun acc j =>
        if (nodeAt nodes j).scopes == key then some j else acc) acc = some i by
    exact h idxs Option.none (fun _ h => h) (Or.inl hi)
  intro l
  induction l with
  | nil =>
    intro acc _ hcase
    rcases hcase with hcase | hcase
    · cases hcase
    · exact hcase
  | cons j js ih =>
    intro acc hsub hcase
    rw [List.foldl_cons]
    by_cases hb : ((nodeAt nodes j).scopes == key) = true
    · have hj : j = i := huniq j (hsub (List.mem_cons_self j js)) (beq_iff_eq.1 hb)
      rw [if_pos hb, hj]
      exact ih _ (fun x hx => hsub (List.mem_cons_of_mem j hx)) (Or.inr rfl)
    · rw [if_neg hb]
      refine ih _ (fun x hx => hsub (List.mem_cons_of_mem j hx)) ?_
      rcases hcase with hcase | hcase
      · rcases List.mem_cons.1 hcase with heq | hcase
        · exfalso
          apply hb
          rw [beq_iff_eq, ← heq]
          exact hk
        · exact Or.inl hcase
      · exact Or.inr hcase

/-- Evolution invariant of the propagation: relative to the input `o`, every
position of an intermediate state `a` is either untouched, or was UNCHANGED
and is now MODIFIED and has a *trigger*: a same-file node of which it is a
strict scope-prefix ancestor and whose original status is MODIFIED or
ADDED. -/
def EvolveT (o a : List INode) : Prop :=
  a.length = o.length ∧
  ∀ i, i < o.length →
    nodeAt a i = nodeAt o i ∨
      ((nodeAt o i).status = .unchanged ∧
       nodeAt a i = { nodeAt o i with status := .modified } ∧
       ∃ j, j < o.length ∧ (nodeAt o j).file = (nodeAt o i).file ∧
         StrictScopePrefix (nodeAt o i).scopes (nodeAt o j).scopes ∧
         ((nodeAt o j).status = .modified ∨ (nodeAt o j).status = .added))

theorem evolveT_refl (o : List INode) : EvolveT o o := ⟨rfl, fun _ _ => Or.inl rfl⟩

theorem evolveT_nodeAt_of_ge {o a : List INode} (h : EvolveT o a) (i : ℕ)
    (hi : o.length ≤ i) : nodeAt a i = nodeAt o i := by
  rw [nodeAt_of_le_length a i (by rw [h.1]; exact hi), nodeAt_of_le_length o i hi]

theorem evolveT_scopes {o a : List INode} (h : EvolveT o a) (i : ℕ) :
    (nodeAt a i).scopes = (nodeAt o i).scopes := by
  rcases Nat.lt_or_ge i o.length with hi | hi
  · rcases h.2 i hi with heq | ⟨_, heq, _⟩
    · rw [heq]
    · rw [heq]
  · rw [evolveT_nodeAt_of_ge h i hi]

theorem evolveT_file {o a : List INode} (h : EvolveT o a) (i : ℕ) :
    (nodeAt a i).file = (nodeAt o i).file := by
  rcases Nat.lt_or_ge i o.length with hi | hi
  · rcases h.2 i hi with heq | ⟨_, heq, _⟩
    · rw [heq]
    · rw [heq]
  · rw [evolveT_nodeAt_of_ge h i hi]

theorem evolveT_eq_of_ne_unchanged {o a : List INode} (h : EvolveT o a) (i : ℕ)
    (hs : (nodeAt o i).status ≠ .unchanged) : nodeAt a i = nodeAt o i := by
  rcases Nat.lt_or_ge i o.length with hi | hi
  · rcases h.2 i hi with heq | ⟨hu, _, _⟩
    · exact heq
    · exact absurd hu hs
  · exact evolveT_nodeAt_of_ge h i hi

/-- A fold preserves any predicate its steps preserve. -/
theorem foldl_preserve {α β : Type} (P : α → Prop) (f : α → β → α) (l : List β)
    (hstep : ∀ a b, b ∈ l → P a → P (f a b)) :
    ∀ a, P a → P (l.foldl f a) := by
  induction l with
  | nil => intro a h; exact h
  | cons x xs ih =>
    intro a h
    rw [List.foldl_cons]
    exact ih (fun a' b hb ha' => hstep a' b (List.mem_cons_of_mem x hb) ha')
      (f a x) (hstep a x (List.mem_cons_self x xs) h)

/-- `upgradeAt` preserves the evolution invariant whenever the upgraded index
has a trigger. -/
theorem evolveT_upgradeAt {o a : List INode} (h : EvolveT o a) (i : ℕ)
    (hi : i < o.length)
    (htrig : ∃ j, j < o.length ∧ (nodeAt o j).file = (nodeAt o i).file ∧
      StrictScopePrefix (nodeAt o i).scopes (nodeAt o j).scopes ∧
      ((nodeAt o j).status = .modified ∨ (nodeAt o j).status = .added)) :
    EvolveT o (upgradeAt a i) := by
  unfold upgradeAt
  split
  case isFalse => exact h
  case isTrue hst =>
    constructor
    · rw [List.length_set]; exact h.1
    · intro m hm
      by_cases hmi : m = i
      · subst hmi
        rcases h.2 m hm with heq | ⟨_, heq, _⟩
        · right
          refine ⟨by rw [← heq]; exact hst, ?_, htrig⟩
          rw [nodeAt_set_self _ _ _ (by rw [h.1]; exact hm), heq]
        · rw [heq] at hst
          cases hst
      · rw [nodeAt_set_ne _ _ _ _ hmi]
        exact h.2 m hm

/-- A modified status can never be downgraded by `upgradeAt`. -/
theorem upgradeAt_modified_stable (a : List INode) (k i : ℕ)
    (h : (nodeAt a i).status = .modified) :
    (nodeAt (upgradeAt a k) i).status = .modified := by
  unfold upgradeAt
  split
  case isFalse => exact h
  case isTrue hk =>
    by_cases hik : i = k
    · subst hik
      rw [h] at hk
      cases hk
    · rw [nodeAt_set_ne _ _ _ _ hik]
      exact h

theorem walkStep_modified_stable (nodes : List INode) (idxs : List ℕ)
    (key : List String) (a : List INode) (d i : ℕ)
    (h : (nodeAt a i).status = .modified) :
    (nodeAt (walkStep nodes idxs key a d) i).status = .modified := by
  unfold walkStep
  cases lastWithKey nodes idxs (key.take d) with
  | some j => exact upgradeAt_modified_stable a j i h
  | none => exact h

theorem processNode_modified_stable (nodes : List INode) (idxs : List ℕ)
    (arr : List INode) (m i : ℕ) (h : (nodeAt arr i).status = .modified) :
    (nodeAt (processNode nodes idxs arr m) i).status = .modified := by
  unfold processNode
  split
  · exact foldl_preserve (fun a => (nodeAt a i).status = .modified) _ _
      (fun a d _ ha => walkStep_modified_stable nodes idxs _ a d i ha) arr h
  · exact h

theorem processFile_modified_stable (nodes : List INode) (arr : List INode)
    (f : String) (i : ℕ) (h : (nodeAt arr i).status = .modified) :
    (nodeAt (processFile nodes arr f) i).status = .modified := by
  unfold processFile
  exact foldl_preserve (fun a => (nodeAt a i).status = .modified) _ _
    (fun a m _ ha => processNode_modified_stable nodes _ a m i ha) arr h

/-- Lengths of `take`-prefixes. -/
theorem take_length_lt {k : List String} {d : ℕ} (hd : d < k.length) :
    (k.take d).length = d := by
  rw [List.length_take]
  omega

theorem strictScopePrefix_take {k : List String} {d : ℕ} (hd : d < k.length) :
    StrictScopePrefix (k.take d) k := by
  constructor
  · rw [take_length_lt hd]; exact hd
  · rw [take_length_lt hd]

theorem strictScopePrefix_take_trans {p k : List String} {d : ℕ}
    (hp : StrictScopePrefix p k) (hd : d < p.length) :
    StrictScopePrefix (p.take d) k := by
  obtain ⟨hl, hpe⟩ := hp
  constructor
  · rw [take_length_lt hd]; omega
  · rw [take_length_lt hd, hpe, List.take_take]
    congr 1
    omega

/-- `walkStep` preserves the evolution invariant when every strict prefix of
`key` that it can upgrade has a trigger. -/
theorem evolveT_walkStep (o : List INode) (f : String) (key : List String)
    (htrig : ∀ d, d < key.length →
      ∃ j, j < o.length ∧ (nodeAt o j).file = f ∧
        StrictScopePrefix (key.take d) (nodeAt o j).scopes ∧
        ((nodeAt o j).status = .modified ∨ (nodeAt o j).status = .added))
    (a : List INode) (d : ℕ) (hd : d < key.length) (ha : EvolveT o a) :
    EvolveT o (walkStep o (fileIndices o f) key a d) := by
  unfold walkStep
  cases hlk : lastWithKey o (fileIndices o f) (key.take d) with
  | none => exact ha
  | some i =>
    obtain ⟨hi_mem, hi_scopes⟩ := lastWithKey_spec o _ _ i hlk
    obtain ⟨hilen, hifile⟩ := (mem_fileIndices o f i).1 hi_mem
    obtain ⟨j, hj, hjf, hjp, hjs⟩ := htrig d hd
    refine evolveT_upgradeAt ha i hilen ⟨j, hj, ?_, ?_, hjs⟩
    · rw [hjf, hifile]
    · rw [hi_scopes]
      exact hjp

/-- `processNode` preserves the evolution invariant for any node of the file
group. -/
theorem evolveT_processNode (o : List INode) (f : String) (a : List INode)
    (m : ℕ) (hm : m ∈ fileIndices o f) (ha : EvolveT o a) :
    EvolveT o (processNode o (fileIndices o f) a m) := by
  unfold processNode
  split
  case isFalse => exact ha
  case isTrue hcond =>
    obtain ⟨hmlen, hmfile⟩ := (mem_fileIndices o f m).1 hm
    have hkey : (nodeAt a m).scopes = (nodeAt o m).scopes := evolveT_scopes ha m
    have htrig : ∀ d, d < (nodeAt a m).scopes.length →
        ∃ j, j < o.length ∧ (nodeAt o j).file = f ∧
          StrictScopePrefix ((nodeAt a m).scopes.take d) (nodeAt o j).scopes ∧
          ((nodeAt o j).status = .modified ∨ (nodeAt o j).status = .added) := by
      intro d hd
      rw [hkey] at hd
      rcases ha.2 m hmlen with heq | ⟨_, _, j, hj, hjf, hjp, hjs⟩
      · refine ⟨m, hmlen, hmfile, ?_, ?_⟩
        · rw [hkey]
          exact strictScopePrefix_take hd
        · rw [heq] at hcond
          exact hcond
      · refine ⟨j, hj, by rw [hjf, hmfile], ?_, hjs⟩
        rw [hkey]
        exact strictScopePrefix_take_trans hjp hd
    refine foldl_preserve (EvolveT o) _ _ ?_ a ha
    intro a' d hd ha'
    have hdlt : d < (nodeAt a m).scopes.length := by
      rw [List.mem_reverse, List.mem_range] at hd
      exact hd
    exact evolveT_walkStep o f _ htrig a' d hdlt ha'

theorem evolveT_processFile (o : List INode) (arr : List INode) (f : String)
    (h : EvolveT o arr) : EvolveT o (processFile o arr f) := by
  unfold processFile
  exact foldl_preserve (EvolveT o) _ _
    (fun a m hm ha => evolveT_processNode o f a m hm ha) arr h

/-- The propagation as a whole satisfies the evolution invariant. -/
theorem evolveT_propagate (o : List INode) : EvolveT o (propagateStatusUpward o) := by
  unfold propagateStatusUpward
  exact foldl_preserve (EvolveT o) _ _
    (fun a f _ ha => evolveT_processFile o a f ha) o (evolveT_refl o)

theorem nodeAt_mem (l : List INode) (i : ℕ) (h : i < l.length) :
    nodeAt l i ∈ l := by
  unfold nodeAt
  rw [List.getD_eq_getElem?_getD, List.getElem?_eq_getElem h]
  exact List.getElem_mem h

/-- Every strict prefix a MODIFIED/ADDED node's walk can upgrade has a
trigger: the node itself when its status is original, or its own trigger
otherwise. -/
theorem walk_trigger (o : List INode) (f : String) (a : List INode) (m : ℕ)
    (hm : m ∈ fileIndices o f) (ha : EvolveT o a)
    (hcond : (nodeAt a m).status = .modified ∨ (nodeAt a m).status = .added) :
    ∀ d, d < (nodeAt a m).scopes.length →
      ∃ j, j < o.length ∧ (nodeAt o j).file = f ∧
        StrictScopePrefix ((nodeAt a m).scopes.take d) (nodeAt o j).scopes ∧
        ((nodeAt o j).status = .modified ∨ (nodeAt o j).status = .added) := by
  obtain ⟨hmlen, hmfile⟩ := (mem_fileIndices o f m).1 hm
  have hkey : (nodeAt a m).scopes = (nodeAt o m).scopes := evolveT_scopes ha m
  intro d hd
  rw [hkey] at hd
  rcases ha.2 m hmlen with heq | ⟨_, _, j, hj, hjf, hjp, hjs⟩
  · refine ⟨m, hmlen, hmfile, ?_, ?_⟩
    · rw [hkey]
      exact strictScopePrefix_take hd
    · rw [heq] at hcond
      exact hcond
  · refine ⟨j, hj, by rw [hjf, hmfile], ?_, hjs⟩
    rw [hkey]
    exact strictScopePrefix_take_trans hjp hd

theorem walkStep_of_some (nodes : List INode) (idxs : List ℕ) (key : List String)
    (a : List INode) (d i : ℕ) (h : lastWithKey nodes idxs (key.take d) = some i) :
    walkStep nodes idxs key a d = upgradeAt a i := by
  unfold walkStep
  rw [h]

/-- At its own turn, a node whose original status is MODIFIED or ADDED
upgrades every same-file UNCHANGED node that is a strict scope-prefix
ancestor of it (scope keys being distinct within the file). -/
theorem processNode_upgrades (o : List INode) (f : String)
    (hdist : ∀ i, i < o.length → ∀ j, j < o.length →
      (nodeAt o i).file = (nodeAt o j).file →
      (nodeAt o i).scopes = (nodeAt o j).scopes → i = j)
    (a : List INode) (ha : EvolveT o a) (jn i : ℕ)
    (hj : jn ∈ fileIndices o f) (hi : i ∈ fileIndices o f)
    (hjs : (nodeAt o jn).status = .modified ∨ (nodeAt o jn).status = .added)
    (hiu : (nodeAt o i).status = .unchanged)
    (hpre : StrictScopePrefix (nodeAt o i).scopes (nodeAt o jn).scopes) :
    (nodeAt (processNode o (fileIndices o f) a jn) i).status = .modified := by
  obtain ⟨hjlen, hjfile⟩ := (mem_fileIndices o f jn).1 hj
  obtain ⟨hilen, hifile⟩ := (mem_fileIndices o f i).1 hi
  have hstat : nodeAt a jn = nodeAt o jn :=
    evolveT_eq_of_ne_unchanged ha jn
      (by rcases hjs with h | h <;> rw [h] <;> intro hc <;> cases hc)
  unfold processNode
  have hcond : (nodeAt a jn).status = .modified ∨ (nodeAt a jn).status = .added := by
    rw [hstat]
    exact hjs
  rw [if_pos hcond]
  have htrig := walk_trigger o f a jn hj ha hcond
  have hkey : (nodeAt a jn).scopes = (nodeAt o jn).scopes := by rw [hstat]
  obtain ⟨hdlt, hdp⟩ := hpre
  have hd0mem : (nodeAt o i).scopes.length ∈
      (List.range (nodeAt a jn).scopes.length).reverse := by
    rw [List.mem_reverse, List.mem_range, hkey]
    exact hdlt
  obtain ⟨dpre, dpost, hsplit⟩ := List.append_of_mem hd0mem
  rw [hsplit, List.foldl_append, List.foldl_cons]
  have hmid : EvolveT o
      (dpre.foldl (walkStep o (fileIndices o f) (nodeAt a jn).scopes) a) := by
    refine foldl_preserve (EvolveT o) _ _ ?_ a ha
    intro a' d hd ha'
    have hdin : d ∈ (List.range (nodeAt a jn).scopes.length).reverse := by
      rw [hsplit]
      exact List.mem_append_left _ hd
    rw [List.mem_reverse, List.mem_range] at hdin
    exact evolveT_walkStep o f _ htrig a' d hdin ha'
  refine foldl_preserve (fun x => (nodeAt x i).status = .modified) _ dpost
    (fun a' d _ ha' => walkStep_modified_stable o _ _ a' d i ha') _ ?_
  have hkeytake : (nodeAt a jn).scopes.take (nodeAt o i).scopes.length =
      (nodeAt o i).scopes := by
    rw [hkey, ← hdp]
  have hlk : lastWithKey o (fileIndices o f)
      ((nodeAt a jn).scopes.take (nodeAt o i).scopes.length) = some i := by
    rw [hkeytake]
    apply lastWithKey_eq_some o _ _ i hi rfl
    intro j' hj' hsc
    obtain ⟨hj'len, hj'file⟩ := (mem_fileIndices o f j').1 hj'
    exact hdist j' hj'len i hilen (by rw [hj'file, hifile]) hsc
  rw [walkStep_of_some o (fileIndices o f) _ _ _ i hlk]
  show (nodeAt (upgradeAt
      (dpre.foldl (walkStep o (fileIndices o f) (nodeAt a jn).scopes) a) i) i).status =
    SymStatus.modified
  unfold upgradeAt
  rcases hmid.2 i hilen with heq | ⟨_, heq, _⟩
  · have hst : (nodeAt (dpre.foldl (walkStep o (fileIndices o f)
        (nodeAt a jn).scopes) a) i).status = .unchanged := by
      rw [heq]
      exact hiu
    have hset := nodeAt_set_self
      (dpre.foldl (walkStep o (fileIndices o f) (nodeAt a jn).scopes) a) i
      { nodeAt (dpre.foldl (walkStep o (fileIndices o f) (nodeAt a jn).scopes) a) i
        with status := .modified }
      (by rw [hmid.1]; exact hilen)
    rw [if_pos hst, hset]
  · have hst : (nodeAt (dpre.foldl (walkStep o (fileIndices o f)
        (nodeAt a jn).scopes) a) i).status = .modified := by
      rw [heq]
    rw [if_neg (by rw [hst]; intro hc; cases hc)]
    exact hst

/-- Lifting `processNode_upgrades` through the whole file group. -/
theorem processFile_upgrades (o : List INode) (f : String)
    (hdist : ∀ i, i < o.length → ∀ j, j < o.length →
      (nodeAt o i).file = (nodeAt o j).file →
      (nodeAt o i).scopes = (nodeAt o j).scopes → i = j)
    (arr : List INode) (harr : EvolveT o arr) (i jn : ℕ)
    (hj : jn ∈ fileIndices o f) (hi : i ∈ fileIndices o f)
    (hjs : (nodeAt o jn).status = .modified ∨ (nodeAt o jn).status = .added)
    (hiu : (nodeAt o i).status = .unchanged)
    (hpre : StrictScopePrefix (nodeAt o i).scopes (nodeAt o jn).scopes) :
    (nodeAt (processFile o arr f) i).status = .modified := by
  unfold processFile
  obtain ⟨ipre, ipost, hsplit⟩ := List.append_of_mem hj
  nth_rewrite 2 [hsplit]
  rw [List.foldl_append, List.foldl_cons]
  have hmid : EvolveT o (ipre.foldl (processNode o (fileIndices o f)) arr) := by
    refine foldl_preserve (EvolveT o) _ _ ?_ arr harr
    intro a m hm ha
    have hm' : m ∈ fileIndices o f := by
      rw [hsplit]
      exact List.mem_append_left _ hm
    exact evolveT_processNode o f a m hm' ha
  refine foldl_preserve (fun x => (nodeAt x i).status = .modified) _ ipost
    (fun a m _ ha => processNode_modified_stable o _ a m i ha) _ ?_
  exact processNode_upgrades o f hdist _ hmid jn i hj hi hjs hiu hpre

/-- Completeness of the whole propagation. -/
theorem propagate_upgrades (o : List INode)
    (hdist : ∀ i, i < o.length → ∀ j, j < o.length →
      (nodeAt o i).file = (nodeAt o j).file →
      (nodeAt o i).scopes = (nodeAt o j).scopes → i = j)
    (i j : ℕ) (hi : i < o.length) (hj : j < o.length)
    (hfile : (nodeAt o i).file = (nodeAt o j).file)
    (hjs : (nodeAt o j).status = .modified ∨ (nodeAt o j).status = .added)
    (hiu : (nodeAt o i).status = .unchanged)
    (hpre : StrictScopePrefix (nodeAt o i).scopes (nodeAt o j).scopes) :
    (nodeAt (propagateStatusUpward o) i).status = .modified := by
  unfold propagateStatusUpward
  have hjmem : j ∈ fileIndices o (nodeAt o j).file :=
    (mem_fileIndices o _ j).2 ⟨hj, rfl⟩
  have himem : i ∈ fileIndices o (nodeAt o j).file :=
    (mem_fileIndices o _ i).2 ⟨hi, hfile⟩
  have hfmem : (nodeAt o j).file ∈ pyDedupe (o.map (fun n => n.file)) := by
    rw [mem_pyDedupe, List.mem_map]
    exact ⟨nodeAt o j, nodeAt_mem o j hj, rfl⟩
  obtain ⟨fpre, fpost, hsplit⟩ := List.append_of_mem hfmem
  rw [hsplit, List.foldl_append, List.foldl_cons]
  have hmid : EvolveT o (fpre.foldl (processFile o) o) :=
    foldl_preserve (EvolveT o) _ _ (fun a g _ ha => evolveT_processFile o a g ha)
      o (evolveT_refl o)
  refine foldl_preserve (fun x => (nodeAt x i).status = .modified) _ fpost
    (fun a g _ ha => processFile_modified_stable o a g i ha) _ ?_
  exact processFile_upgrades o _ hdist _ hmid i j hjmem himem hjs hiu hpre

/-- C3 (amended).  Provided scope-chain keys are distinct within each file
(the `scope_to_node` dict is then injective — with duplicate keys the dict
shadows all but the last node, see the counterexample): after propagation,
every same-file strict-prefix ancestor of a MODIFIED/ADDED node that was
UNCHANGED is MODIFIED; nodes whose status was not UNCHANGED are untouched
(ADDED/DELETED/MOVED are never demoted); and any node the propagation
changes was an UNCHANGED strict-prefix ancestor, in the same file, of some
MODIFIED/ADDED node — siblings and other files are never affected. -/
theorem propagate_status_upward_spec (nodes : List INode)
    (hdist : ∀ i, i < nodes.length → ∀ j, j < nodes.length →
      (nodeAt nodes i).file = (nodeAt nodes j).file →
      (nodeAt nodes i).scopes = (nodeAt nodes j).scopes → i = j) :
    (∀ i j, i < nodes.length → j < nodes.length →
      (nodeAt nodes i).file = (nodeAt nodes j).file →
      StrictScopePrefix (nodeAt nodes i).scopes (nodeAt nodes j).scopes →
      ((nodeAt nodes j).status = .modified ∨ (nodeAt nodes j).status = .added) →
      (nodeAt nodes i).status = .unchanged →
      (nodeAt (propagateStatusUpward nodes) i).status = .modified) ∧
    (∀ i, (nodeAt nodes i).status ≠ .unchanged →
      nodeAt (propagateStatusUpward nodes) i = nodeAt nodes i) ∧
    (∀ i, i < nodes.length →
      nodeAt (propagateStatusUpward nodes) i ≠ nodeAt nodes i →
      (nodeAt nodes i).status = .unchanged ∧
      (nodeAt (propagateStatusUpward nodes) i).status = .modified ∧
      ∃ j, j < nodes.length ∧ (nodeAt nodes j).file = (nodeAt nodes i).file ∧
        StrictScopePrefix (nodeAt nodes i).scopes (nodeAt nodes j).scopes ∧
        ((nodeAt nodes j).status = .modified ∨
          (nodeAt nodes j).status = .added)) := by
  refine ⟨?_, ?_, ?_⟩
  · intro i j hi hj hf hp hjs hiu
    exact propagate_upgrades nodes hdist i j hi hj hf hjs hiu hp
  · intro i hs
    exact evolveT_eq_of_ne_unchanged (evolveT_propagate nodes) i hs
  · intro i hi hne
    rcases (evolveT_propagate nodes).2 i hi with heq | ⟨h1, h2, h3⟩
    · exact absurd heq hne
    · exact ⟨h1, by rw [h2], h3⟩

/-- The spec's status-propagation scenario: a module with class
`PaymentClient` containing `charge` (MODIFIED) and `refund` (UNCHANGED). -/
def exNodesScenario : List INode :=
  [⟨"payment.py", [], .unchanged⟩,
   ⟨"payment.py", ["PaymentClient"], .unchanged⟩,
   ⟨"payment.py", ["PaymentClient", "charge"], .modified⟩,
   ⟨"payment.py", ["PaymentClient", "refund"], .unchanged⟩]

/-- Witness for `propagate_status_upward_spec` on the spec scenario:
`charge` MODIFIED bubbles to `PaymentClient` and the module, `charge` itself
is untouched, and sibling `refund` remains UNCHANGED. -/
theorem propagate_status_upward_spec_witness :
    (nodeAt (propagateStatusUpward exNodesScenario) 0).status = .modified ∧
    (nodeAt (propagateStatusUpward exNodesScenario) 1).status = .modified ∧
    nodeAt (propagateStatusUpward exNodesScenario) 2 = nodeAt exNodesScenario 2 ∧
    (nodeAt (propagateStatusUpward exNodesScenario) 3).status = .unchanged := by
  refine ⟨?_, ?_, ?_, by decide⟩
  · exact (propagate_status_upward_spec exNodesScenario (by decide)).1 0 2
      (by decide) (by decide) (by decide) (by decide) (by decide) (by decide)
  · exact (propagate_status_upward_spec exNodesScenario (by decide)).1 1 2
      (by decide) (by decide) (by decide) (by decide) (by decide) (by decide)
  · exact (propagate_status_upward_spec exNodesScenario (by decide)).2.1 2 (by decide)

/-- Three same-file nodes where two share the scope key `()`: the
`scope_to_node` dict keeps only the later one. -/
def exNodesDup : List INode :=
  [⟨"f.py", [], .unchanged⟩,
   ⟨"f.py", [], .unchanged⟩,
   ⟨"f.py", ["g"], .modified⟩]

/-- C3 counterexample.  With duplicate scope keys in one file, node 0 is a
same-file strict-prefix UNCHANGED ancestor of the MODIFIED node 2, yet after
propagation it is still UNCHANGED (the dict entry for key `()` was
overwritten by node 1, which is upgraded instead) — contradicting the claim
that *every* such ancestor ends MODIFIED. -/
theorem propagate_shadowed_ancestor :
    (nodeAt exNodesDup 0).file = (nodeAt exNodesDup 2).file ∧
    StrictScopePrefix (nodeAt exNodesDup 0).scopes (nodeAt exNodesDup 2).scopes ∧
    (nodeAt exNodesDup 2).status = .modified ∧
    (nodeAt exNodesDup 0).status = .unchanged ∧
    (nodeAt (propagateStatusUpward exNodesDup) 0).status = .unchanged ∧
    (nodeAt (propagateStatusUpward exNodesDup) 1).status = .modified := by
  decide

end RCA
